import Mathlib

/-!
Shallow embedding of the `nu_plugin_bio` format-adapter layer
(`src/bio_format/{fasta,bam,bcf,cram,gfa}.rs`), together with proofs about
the frozen specification claims.

Conventions of the embedding:
* `NuValue` models the nushell `Value` tagged union (spans are dropped:
  they carry no data relevant to any claim).
* Rust `Result<_, LabeledError>` becomes `Except String _`; a Rust panic
  (`unwrap` on `None`, `unreachable!`) is modelled as an `Except.error`
  carrying a `panic:`-prefixed message — no claim exercises those paths.
* Text is modelled at the `List Char` level; `String` is the wrapper at
  the adapter boundary.  Byte strings (possibly invalid UTF-8) are
  modelled as `List Nat`.
* The external `noodles`/`gfa` codecs are collaborators outside the
  repository (the spec treats them as interfaces only); where a claim
  depends on their behaviour the corresponding definition carries a
  `Modelled from the spec:` doc comment.
-/

namespace NuBio

/-- The nushell structured value model (`nu_protocol::Value`), restricted to
the constructors the adapters produce: strings, ints, lists and records
(ordered association lists).  Spans are omitted. -/
inductive NuValue where
  | str (s : String)
  | int (i : Int)
  | list (l : List NuValue)
  | recV (fields : List (String × NuValue))

/-- Column names of a record value; `[]` for non-records. -/
def recordCols : NuValue → List String
  | .recV fields => fields.map Prod.fst
  | _ => []

/-- Field values of a record value; `[]` for non-records. -/
def recordVals : NuValue → List NuValue
  | .recV fields => fields.map Prod.snd
  | _ => []

/-- Look a field up in a record value (first occurrence). -/
def recordGet (v : NuValue) (k : String) : Option NuValue :=
  match v with
  | .recV fields => (fields.find? (fun p => p.1 == k)).map Prod.snd
  | _ => none

/-- Rust `Value::as_list().is_ok()`. -/
def isList : NuValue → Bool
  | .list _ => true
  | _ => false

/-- Rust `Value::as_str()` — succeeds only on string values. -/
def asStr : NuValue → Except String String
  | .str s => .ok s
  | _ => .error ("cannot convert value to string")

/-- Rust `Value::as_record()` — succeeds only on record values. -/
def asRecE : NuValue → Except String (List (String × NuValue))
  | .recV fields => .ok fields
  | _ => .error ("cannot convert value to record")

/-- Rust `opt.map(|e| e.as_str().unwrap())` applied to an optional value:
the `unwrap` panic is modelled as an error. -/
def optAsStr : Option NuValue → Except String (Option String)
  | none => .ok none
  | some (.str s) => .ok (some s)
  | some _ => .error ("panic: as_str unwrap failed")

/-- Rust `collect::<Result<Vec<_>, _>>()`: collect a fallible map,
stopping at the first error. -/
def collectE {a b : Type} (f : a -> Except String b) : List a -> Except String (List b)
  | [] => .ok []
  | x :: xs =>
    match f x with
    | .error e => .error e
    | .ok y =>
      match collectE f xs with
      | .error e => .error e
      | .ok ys => .ok (y :: ys)

/-! ### Line splitting

The text codecs work line by line.  `splitOnNl` is newline splitting at the
character-list level; it always returns a non-empty list and
`splitOnNl [] = [[]]`, mirroring the fact that a byte stream with a
trailing newline yields a final empty line. -/

/-- Split a character list at every newline character. -/
def splitOnNl : List Char → List (List Char)
  | [] => [[]]
  | c :: cs =>
    if c = '\n' then [] :: splitOnNl cs
    else
      match splitOnNl cs with
      | l :: ls => (c :: l) :: ls
      | [] => [[c]]

/-! ### FASTA (`src/bio_format/fasta.rs`)

The decoder (`noodles_fasta::io::Reader`) and encoder
(`noodles_fasta::io::Writer`) are external collaborators; they are
modelled below from the spec (§4.6, §8) at the text level.  The record
mapper and the reverse mapper are translated from `fasta.rs`. -/

/-- One decoded FASTA domain record at the character level: the name is
the definition-line text up to the first space, the description the rest
(absent when there was no space), the sequence the concatenation of the
following non-definition lines. -/
structure FastaRecC where
  name : List Char
  description : Option (List Char)
  seq : List Char
deriving DecidableEq

/-- Split a definition-line body at the first space into name and
optional description (the behaviour of the external FASTA decoder on the
text after the marker character). -/
def splitDefC (s : List Char) : List Char × Option (List Char) :=
  let n := s.takeWhile (fun c => c ≠ ' ')
  match s.dropWhile (fun c => c ≠ ' ') with
  | [] => (n, none)
  | _ :: d => (n, some d)

/-- The body of a FASTA definition line (`some` of the text after the
marker when the line starts with the marker). -/
def defLineBody? : List Char → Option (List Char)
  | c :: dd => if c = '>' then some dd else none
  | [] => none

/-- Modelled from the spec: the external FASTA decoder
(`noodles_fasta::io::Reader::records`, an out-of-repository collaborator,
spec §4.5 "Sequence record mapper" and §8's concrete FASTA scenario).
Accumulates sequence lines for the current record until the next
definition line. -/
def parseFastaAux (n : List Char) (ds : Option (List Char)) (acc : List Char) :
    List (List Char) → List FastaRecC
  | [] => [⟨n, ds, acc⟩]
  | l :: ls =>
    match defLineBody? l with
    | some dd =>
      let p := splitDefC dd
      ⟨n, ds, acc⟩ :: parseFastaAux p.1 p.2 [] ls
    | none => parseFastaAux n ds (acc ++ l) ls

/-- Modelled from the spec: the external FASTA decoder, entry point over
the list of input lines.  Lines before the first definition line carry no
record. -/
def parseFastaC : List (List Char) → List FastaRecC
  | [] => []
  | l :: ls =>
    match defLineBody? l with
    | some dd =>
      let p := splitDefC dd
      parseFastaAux p.1 p.2 [] ls
    | none => parseFastaC ls

/-- The flag-dependent FASTA column list (`from_fasta_inner`, fasta.rs
lines 188–195). -/
def fasta_cols (description : Bool) : List String :=
  match description with
  | false => ["id", "sequence"]
  | true => ["id", "description", "sequence"]

/-- One structured FASTA record (`iterate_fasta_records`, fasta.rs lines
143–161): id, then the description when the flag is set (absent
description becomes the empty string, `with_string_or(r.description(), "")`),
then the sequence; zipped positionally with the column list. -/
def fastaRecordValue (description : Bool) (r : FastaRecC) : NuValue :=
  let vals :=
    [NuValue.str ⟨r.name⟩]
      ++ (if description then [NuValue.str ⟨r.description.getD []⟩] else [])
      ++ [NuValue.str ⟨r.seq⟩]
  NuValue.recV ((fasta_cols description).zip vals)

/-- `from_fasta_inner` (fasta.rs lines 166–209) on string input through
the uncompressed reader: parse, then map every decoded record through the
record mapper.  Compression and the binary input arm are orthogonal to
every claim and omitted. -/
def from_fasta_inner (description : Bool) (input : String) : List NuValue :=
  (parseFastaC (splitOnNl input.data)).map (fastaRecordValue description)

/-- Modelled from the spec: the external FASTA text encoder
(`noodles_fasta::io::Writer::write_record`, spec §4.6: re-emit
format-correct text): marker, name, the description after one space when
present, newline, the sequence, newline. -/
def fastaRecordText (id : String) (description : Option String) (seq : String) :
    List Char :=
  '>' :: id.data
    ++ (match description with
        | none => []
        | some d => ' ' :: d.data)
    ++ '\n' :: seq.data ++ ['\n']

/-- The body of the `nuon_to_fasta` loop for one list element (fasta.rs
lines 218–232): the element must be a record, its last value is the
sequence, value 0 the id, value 1 the description (when present). -/
def fastaWriteEl (el : NuValue) : Except String (List Char) := do
  let inner ← asRecE el
  let vals := inner.map Prod.snd
  match vals.getLast? with
  | none => .error ("panic: pop unwrap on an empty record")
  | some last => do
    let rest := vals.dropLast
    let sequence ← asStr last
    let id ← optAsStr (rest.get? 0)
    let description ← optAsStr (rest.get? 1)
    .ok (fastaRecordText (id.getD ("")) description sequence)

/-- `nuon_to_fasta` (fasta.rs lines 214–239): serialize a list of
structured records to FASTA text; any non-list input is skipped and the
empty string returned. -/
def nuon_to_fasta (input : NuValue) : Except String NuValue :=
  match input with
  | .list l =>
    match collectE fastaWriteEl l with
    | .error e => .error e
    | .ok chunks => .ok (.str ⟨chunks.flatten⟩)
  | _ => .ok (.str (""))

/-! ### FASTQ (`src/bio_format/fasta.rs`, fastq half) -/

/-- One decoded FASTQ domain record at the character level.  As in the
external decoder's record type, the description is a plain (possibly
empty) text, not an option. -/
structure FastqRecC where
  name : List Char
  description : List Char
  seq : List Char
  qual : List Char
deriving DecidableEq

/-- Split a FASTQ definition-line body at the first space; no space means
an empty description. -/
def splitFqDef (s : List Char) : List Char × List Char :=
  (s.takeWhile (fun c => c ≠ ' '),
   match s.dropWhile (fun c => c ≠ ' ') with
   | [] => []
   | _ :: d => d)

/-- Strip one leading marker character from a FASTQ definition line. -/
def stripAt : List Char → List Char
  | c :: x => if c = '@' then x else c :: x
  | [] => []

/-- Modelled from the spec: the external FASTQ decoder
(`noodles_fastq::io::Reader::records`): four lines per record —
definition, sequence, separator (ignored), quality. -/
def parseFastqC : List (List Char) → List FastqRecC
  | d :: s :: _p :: q :: rest =>
    let body := stripAt d
    let pr := splitFqDef body
    ⟨pr.1, pr.2, s, q⟩ :: parseFastqC rest
  | _ => []

/-- The flag-dependent FASTQ column list (`from_fastq_inner`, fasta.rs
lines 91–109). -/
def fastq_cols (description quality_scores : Bool) : List String :=
  match description, quality_scores with
  | false, false => ["id", "sequence"]
  | true, false => ["id", "description", "sequence"]
  | false, true => ["id", "quality_scores", "sequence"]
  | true, true => ["id", "description", "quality_scores", "sequence"]

/-- One structured FASTQ record (`iterate_fastq_records`, fasta.rs lines
42–63): id, then description and quality scores when the flags are set,
then the sequence; zipped positionally with the column list. -/
def fastqRecordValue (description quality_scores : Bool) (r : FastqRecC) : NuValue :=
  let vals :=
    [NuValue.str ⟨r.name⟩]
      ++ (if description then [NuValue.str ⟨r.description⟩] else [])
      ++ (if quality_scores then [NuValue.str ⟨r.qual⟩] else [])
      ++ [NuValue.str ⟨r.seq⟩]
  NuValue.recV ((fastq_cols description quality_scores).zip vals)

/-- `from_fastq_inner` (fasta.rs lines 68–133) on string input through
the uncompressed reader. -/
def from_fastq_inner (description quality_scores : Bool) (input : String) :
    List NuValue :=
  (parseFastqC (splitOnNl input.data)).map (fastqRecordValue description quality_scores)

/-- Modelled from the spec: the external FASTQ text encoder
(`noodles_fastq::io::Writer::write_record`): marker, name, the
description after one space when non-empty, then sequence, separator and
quality lines. -/
def fastqRecordText (id description seq qual : String) : List Char :=
  '@' :: id.data
    ++ (if description.data = [] then [] else ' ' :: description.data)
    ++ '\n' :: seq.data ++ '\n' :: '+' :: '\n' :: qual.data ++ ['\n']

/-- The body of the `nuon_to_fastq` loop for one list element (fasta.rs
lines 267–298), parameterised by the column shape inferred from the first
record.  The `(_, false)` shapes are the source's `unreachable!()`. -/
def fastqWriteEl (description quality : Bool) (el : NuValue) :
    Except String (List Char) := do
  let inner ← asRecE el
  let vals := inner.map Prod.snd
  match vals.getLast? with
  | none => .error ("panic: pop unwrap on an empty record")
  | some last => do
    let rest := vals.dropLast
    let sequence ← asStr last
    let id ← optAsStr (rest.get? 0)
    let dq : Option String × Option String ←
      match description, quality with
      | true, true => do
        let d ← optAsStr (rest.get? 1)
        let q ← optAsStr (rest.get? 2)
        pure (d, q)
      | false, true => do
        let q ← optAsStr (rest.get? 1)
        pure (none, q)
      | _, false => .error ("panic: unreachable")
    .ok (fastqRecordText (id.getD ("")) (dq.1.getD ("")) sequence (dq.2.getD ("")))

/-- `nuon_to_fastq` (fasta.rs lines 241–305): infer the column shape from
the first record, fail without quality scores, then serialize every
record; any non-list input is skipped and the empty string returned. -/
def nuon_to_fastq (input : NuValue) : Except String NuValue :=
  match input with
  | .list l =>
    match l.head? with
    | none => .error ("No value: There was no first value to call `to fastq` on")
    | some first =>
      match asRecE first with
      | .error e => .error e
      | .ok fields =>
        let cols := fields.map Prod.fst
        let description := cols.contains ("description")
        let quality := cols.contains ("quality_scores")
        if quality then
          match collectE (fastqWriteEl description quality) l with
          | .error e => .error e
          | .ok chunks => .ok (.str ⟨chunks.flatten⟩)
        else
          .error ("No quality scores: Consider using `to fasta` if you don\x27t have any quality scores, or pass the -q option on a fastq")
  | _ => .ok (.str (""))

/-! ### Round-trip helper notions for FASTA/FASTQ

`fastaOut`/`fastqOut` name the text chunk the reverse mappers produce for
one forward-mapped record; the `WF` predicates collect the shape facts
that hold of every decoder-produced record (names are space-free, no
field contains a newline, a sequence never starts with the definition
marker). -/

/-- The serialized chunk for one forward-mapped FASTA record under flag
`d`. -/
def fastaOut (d : Bool) (r : FastaRecC) : List Char :=
  fastaRecordText ⟨r.name⟩ (if d then some ⟨r.description.getD []⟩ else none)
    ⟨r.seq⟩

/-- The FASTA definition line written for a record under flag `d`. -/
def fastaDefLineC (d : Bool) (r : FastaRecC) : List Char :=
  '>' :: (r.name ++ (if d then ' ' :: r.description.getD [] else []))

/-- What a forward-mapped FASTA record becomes after one
serialize/re-parse cycle at the domain level (the description collapses
to its flag-shaped normal form; id and sequence are untouched). -/
def fastaReParse (d : Bool) (r : FastaRecC) : FastaRecC :=
  ⟨r.name, if d then some (r.description.getD []) else none, r.seq⟩

/-- Shape facts holding of every decoder-produced FASTA record. -/
def FastaWF (r : FastaRecC) : Prop :=
  ' ' ∉ r.name ∧ '\n' ∉ r.name ∧ '\n' ∉ r.description.getD [] ∧
  '\n' ∉ r.seq ∧ r.seq.head? ≠ some '>'

/-- The body of the FASTQ definition line written for name and
description (a space separator only for a non-empty description). -/
def fqDefLineBody (name desc : List Char) : List Char :=
  if desc = [] then name else name ++ ' ' :: desc

/-- The serialized chunk for one forward-mapped FASTQ record under flag
`d` (quality flag set). -/
def fastqOut (d : Bool) (r : FastqRecC) : List Char :=
  fastqRecordText ⟨r.name⟩ ⟨if d then r.description else []⟩ ⟨r.seq⟩ ⟨r.qual⟩

/-- What a forward-mapped FASTQ record becomes after one
serialize/re-parse cycle at the domain level. -/
def fastqReParse (d : Bool) (r : FastqRecC) : FastqRecC :=
  ⟨r.name, if d then r.description else [], r.seq, r.qual⟩

/-- Shape facts holding of every decoder-produced FASTQ record. -/
def FastqWF (r : FastqRecC) : Prop :=
  ' ' ∉ r.name ∧ '\n' ∉ r.name ∧ '\n' ∉ r.description ∧ '\n' ∉ r.seq ∧
  '\n' ∉ r.qual

/-! ### UTF-8 (models of `String::from_utf8` / `String::from_utf8_lossy`)

Byte strings are `List Nat`.  `utf8Decode` implements strict UTF-8
decoding (continuation bytes, overlong forms, surrogates and the code
point ceiling are rejected, as in Rust's `String::from_utf8`).
`utf8Lossy` never fails and substitutes U+FFFD for ill-formed input; the
exact grouping of ill-formed bytes into replacement characters is
approximated (one replacement per rejected lead byte), which no claim
depends on. -/

/-- A UTF-8 continuation byte. -/
def isContByte (b : Nat) : Prop := 0x80 ≤ b ∧ b < 0xC0

instance (b : Nat) : Decidable (isContByte b) := by
  unfold isContByte; infer_instance

/-- Strict UTF-8 decoding, one unit of fuel per input byte (the fuel is
only a structural-recursion device; the wrappers pass the byte count). -/
def utf8DecodeGo : Nat → List Nat → Option (List Char)
  | _, [] => some []
  | 0, _ :: _ => none
  | fuel + 1, b :: bs =>
    if b < 0x80 then (utf8DecodeGo fuel bs).map (fun cs => Char.ofNat b :: cs)
    else if b < 0xC2 then none
    else if b < 0xE0 then
      match bs with
      | b1 :: bs1 =>
        if isContByte b1 then
          (utf8DecodeGo fuel bs1).map
            (fun cs => Char.ofNat ((b - 0xC0) * 0x40 + (b1 - 0x80)) :: cs)
        else none
      | [] => none
    else if b < 0xF0 then
      match bs with
      | b1 :: b2 :: bs2 =>
        if isContByte b1 ∧ isContByte b2 ∧ (b = 0xE0 → 0xA0 ≤ b1) ∧
            (b = 0xED → b1 < 0xA0) then
          (utf8DecodeGo fuel bs2).map
            (fun cs =>
              Char.ofNat ((b - 0xE0) * 0x1000 + (b1 - 0x80) * 0x40 + (b2 - 0x80)) :: cs)
        else none
      | _ => none
    else if b < 0xF5 then
      match bs with
      | b1 :: b2 :: b3 :: bs3 =>
        if isContByte b1 ∧ isContByte b2 ∧ isContByte b3 ∧
            (b = 0xF0 → 0x90 ≤ b1) ∧ (b = 0xF4 → b1 < 0x90) then
          (utf8DecodeGo fuel bs3).map
            (fun cs =>
              Char.ofNat ((b - 0xF0) * 0x40000 + (b1 - 0x80) * 0x1000
                + (b2 - 0x80) * 0x40 + (b3 - 0x80)) :: cs)
        else none
      | _ => none
    else none

/-- Strict UTF-8 decoding, the model of Rust `String::from_utf8`. -/
def utf8Decode (bytes : List Nat) : Option (List Char) :=
  utf8DecodeGo bytes.length bytes

/-- The Unicode replacement character. -/
def replChar : Char := Char.ofNat 0xFFFD

/-- Lossy UTF-8 decoding with fuel, branch-aligned with `utf8DecodeGo`:
every rejected position contributes a replacement character instead of a
failure. -/
def utf8LossyGo : Nat → List Nat → List Char
  | _, [] => []
  | 0, _ :: _ => []
  | fuel + 1, b :: bs =>
    if b < 0x80 then Char.ofNat b :: utf8LossyGo fuel bs
    else if b < 0xC2 then replChar :: utf8LossyGo fuel bs
    else if b < 0xE0 then
      match bs with
      | b1 :: bs1 =>
        if isContByte b1 then
          Char.ofNat ((b - 0xC0) * 0x40 + (b1 - 0x80)) :: utf8LossyGo fuel bs1
        else replChar :: utf8LossyGo fuel (b1 :: bs1)
      | [] => [replChar]
    else if b < 0xF0 then
      match bs with
      | b1 :: b2 :: bs2 =>
        if isContByte b1 ∧ isContByte b2 ∧ (b = 0xE0 → 0xA0 ≤ b1) ∧
            (b = 0xED → b1 < 0xA0) then
          Char.ofNat ((b - 0xE0) * 0x1000 + (b1 - 0x80) * 0x40 + (b2 - 0x80))
            :: utf8LossyGo fuel bs2
        else replChar :: utf8LossyGo fuel (b1 :: b2 :: bs2)
      | _ => [replChar]
    else if b < 0xF5 then
      match bs with
      | b1 :: b2 :: b3 :: bs3 =>
        if isContByte b1 ∧ isContByte b2 ∧ isContByte b3 ∧
            (b = 0xF0 → 0x90 ≤ b1) ∧ (b = 0xF4 → b1 < 0x90) then
          Char.ofNat ((b - 0xF0) * 0x40000 + (b1 - 0x80) * 0x1000
            + (b2 - 0x80) * 0x40 + (b3 - 0x80)) :: utf8LossyGo fuel bs3
        else replChar :: utf8LossyGo fuel (b1 :: b2 :: b3 :: bs3)
      | _ => [replChar]
    else replChar :: utf8LossyGo fuel bs

/-- Lossy UTF-8 decoding, the model of Rust `String::from_utf8_lossy`. -/
def utf8Lossy (bytes : List Nat) : List Char :=
  utf8LossyGo bytes.length bytes

/-! ### The `SpanExt` helpers

`SpanExt` lives in `src/bio_format/mod.rs`, which is not part of the
provided sources (only its users are).  The helpers are therefore
modelled from the spec (§4.4: "Missing optional sub-fields are filled
with sentinel placeholder strings"; §4.2: "for SAM-family data, malformed
UTF-8 falls back to lossy replacement"). -/

/-- Modelled from the spec: `Span::with_string` — wrap a string as a
string value. -/
def with_string (s : String) : NuValue := .str s

/-- Modelled from the spec: `Span::with_string_or` on an optional byte
string — the value when present (lossy-decoded, §4.2), otherwise the
given sentinel placeholder (§4.4). -/
def with_string_or (o : Option (List Nat)) (dflt : String) : NuValue :=
  match o with
  | some b => .str ⟨utf8Lossy b⟩
  | none => .str dflt

/-! ### Hexadecimal rendering (Rust `format!` with `:#06x` / `:#05x`) -/

/-- Lowercase hexadecimal digits of `n` (at least one digit). -/
def hexDigits (n : Nat) : List Char := Nat.toDigits 16 n

/-- Rust `format!("\x7b:#06x\x7d", n)`: `0x`, then the hex digits
zero-padded to width four (total width six). -/
def rustHex6 (n : Nat) : String :=
  ⟨'0' :: 'x' :: (List.replicate (4 - (hexDigits n).length) '0' ++ hexDigits n)⟩

/-- Rust `format!("\x7b:#05x\x7d", n)`: `0x`, then the hex digits
zero-padded to width three (total width five). -/
def rustHex5 (n : Nat) : String :=
  ⟨'0' :: 'x' :: (List.replicate (3 - (hexDigits n).length) '0' ++ hexDigits n)⟩

/-! ### SAM/BAM alignment records (`src/bio_format/bam.rs`)

The decoded alignment record is an external domain record; its accessor
results are modelled as fields.  Outer `Option` layers model
`Result`/`Option` accessor outcomes exactly as the source consumes them
(`.map(...).unwrap_or(...)`); the reference-sequence lookup through the
header is folded into the accessor result, as the source only formats the
resolved index. -/

/-- A SAM auxiliary-field value
(`sam::alignment::record::data::field::Value`), restricted to the
variants `create_record_values` matches on; float payloads and the
debug-formatted catch-all carry their rendered text, which the source
only ever passes through a format string. -/
inductive SamFieldValue where
  | character (c : Char)
  | int32 (i : Int)
  | float (rendered : String)
  | strV (s : List Nat)
  | hexV (h : List Nat)
  | arrayV
  | other (debugRendered : String)
deriving DecidableEq

/-- One decoded alignment domain record (the accessor surface of
`noodles_sam::alignment::Record` that `create_record_values` consumes).
`data` entries are `none` when the field iterator yielded an error for
that field (`filter_map(|field_result| field_result.ok() ...)`); the tag
is kept as its two-letter text, matching the source's debug-format
extraction. -/
structure SamRecord where
  name : Option (List Nat)
  flags : Option Nat
  mappingQuality : Option (Option Nat)
  referenceSequenceId : Option (Option Nat)
  alignmentStart : Option (Option Nat)
  cigarLen : Nat
  seqLen : Nat
  qualLen : Nat
  mateReferenceSequenceId : Option (Option Nat)
  mateAlignmentStart : Option (Option Nat)
  templateLength : Option Int
  data : List (Option (String × SamFieldValue))
deriving DecidableEq

/-- Columns in a BAM/SAM file (`BAM_COLUMNS`, bam.rs lines 12–25). -/
def BAM_COLUMNS : List String :=
  ["read_name", "flags", "reference_sequence_id", "alignment_start",
   "mapping_quality", "cigar", "mate_reference_sequence_id",
   "mate_alignment_start", "template_length", "sequence",
   "quality_scores", "data"]

/-- The `TAG:TYPE:VALUE` text of one auxiliary field (the match inside
`create_record_values`, bam.rs lines 214–243). -/
def samTagString (tag : String) (v : SamFieldValue) : String :=
  let valueStr : String :=
    match v with
    | .character c => "A:" ++ ⟨[c]⟩
    | .int32 i => "i:" ++ toString i
    | .float r => "f:" ++ r
    | .strV s => "Z:" ++ ⟨utf8Lossy s⟩
    | .hexV h => "H:" ++ ⟨utf8Lossy h⟩
    | .arrayV => "B:array"
    | .other dbg => dbg
  tag ++ ":" ++ valueStr

/-- `create_record_values` (bam.rs lines 128–259): the twelve field
values of one alignment record, in schema order. -/
def create_record_values (r : SamRecord) : List NuValue :=
  let flags := r.flags.getD 0
  let mapping_quality :=
    (r.mappingQuality.map
      (fun mq => (mq.map (fun n => toString n)).getD ("*"))).getD ("*")
  let reference_sequence_id :=
    (r.referenceSequenceId.map
      (fun idq => (idq.map (fun i => toString i)).getD ("*"))).getD ("*")
  let alignment_start :=
    (r.alignmentStart.map
      (fun pq => (pq.map (fun p => toString p)).getD ("0"))).getD ("0")
  let cigar := "cigar_ops:" ++ toString r.cigarLen
  let sequence :=
    if r.seqLen > 0 then ("sequence_length:") ++ toString r.seqLen else ("*")
  let quality_scores :=
    if r.qualLen > 0 then ("quality_length:") ++ toString r.qualLen
    else ("quality_length:0")
  let mate_reference_sequence_id :=
    (r.mateReferenceSequenceId.map
      (fun idq => (idq.map (fun i => toString i)).getD ("*"))).getD ("*")
  let mate_alignment_start :=
    (r.mateAlignmentStart.map
      (fun pq => (pq.map (fun p => toString p)).getD ("0"))).getD ("0")
  let template_length := (r.templateLength.map (fun l => toString l)).getD ("0")
  let data :=
    String.intercalate ("\t")
      ((r.data.filterMap id).map (fun f => samTagString f.1 f.2))
  [with_string_or r.name ("No read name."),
   with_string (rustHex6 flags),
   with_string reference_sequence_id,
   with_string alignment_start,
   with_string mapping_quality,
   with_string cigar,
   with_string mate_reference_sequence_id,
   with_string mate_alignment_start,
   with_string template_length,
   with_string sequence,
   with_string quality_scores,
   with_string data]

/-- One structured body record of the alignment family: the schema
zipped with the computed values (bam.rs lines 305–310). -/
def bamBodyValue (r : SamRecord) : NuValue :=
  .recV (BAM_COLUMNS.zip (create_record_values r))

/-- `from_bam_inner` (bam.rs lines 262–323) after the external decoder:
the record stream is the list of per-record decode outcomes; a decode
error aborts the whole invocation.  The already-parsed header value is a
parameter (`parse_header` output).  `from_sam_inner` (lines 326–365) has
the identical record path. -/
def from_bam_inner (headerVal : NuValue)
    (stream : List (Except String SamRecord)) : Except String NuValue :=
  match collectE
    (fun item =>
      match item with
      | .ok r => Except.ok (bamBodyValue r)
      | .error e =>
        Except.error ("Record reading failed. cause of failure: " ++ e)) stream with
  | .error e => .error e
  | .ok recs => .ok (.recV [("header", headerVal), ("body", .list recs)])

/-! ### CRAM (`src/bio_format/cram.rs`) -/

/-- The prefix of successfully decoded records before the first decode
fault (the `Err(_) => break` loop of `from_cram_inner`, cram.rs lines
47–58). -/
def takeOks : List (Except String SamRecord) → List SamRecord
  | [] => []
  | .ok r :: rest => r :: takeOks rest
  | .error _ :: _ => []

/-- `from_cram_inner` (cram.rs lines 13–82) after file definition and
header were read successfully: iterate records, stopping at the first
decode error, and return header plus body.  The `catch_unwind` branch
(a decoder panic, which discards the prefix and adds a `note` column) is
outside the shallow embedding; this is the non-panicking path. -/
def from_cram_inner (headerVal : NuValue)
    (stream : List (Except String SamRecord)) : NuValue :=
  .recV [("header", headerVal),
         ("body", .list ((takeOks stream).map bamBodyValue))]

/-! ### VCF/BCF (`src/bio_format/bcf.rs`) -/

/-- An opaque decoded variant domain record; `iterate_vcf_records` and
`iterate_bcf_records` never inspect it (record parsing is skipped in the
source: "Skipping record parsing due to API incompatibility"). -/
structure VcfRecord where
  raw : List Nat
deriving DecidableEq

/-- VCF column headers (`VCF_COLUMNS`, bcf.rs lines 29–40). -/
def VCF_COLUMNS : List String :=
  ["chrom", "pos", "rlen", "qual", "id", "ref", "alt", "filter", "info",
   "genotypes"]

/-- The structured body record built for one decoded variant record
(bcf.rs lines 345–352): the column list zipped with the — empty —
computed value vector (`add_record` is commented out). -/
def vcfBodyValue (_r : VcfRecord) : NuValue :=
  .recV (VCF_COLUMNS.zip ([] : List NuValue))

/-- `iterate_vcf_records` (bcf.rs lines 331–356): a decode error aborts;
otherwise every decoded record contributes one body record.
`iterate_bcf_records` (lines 226–252) is identical. -/
def iterate_vcf_records (stream : List (Except String VcfRecord)) :
    Except String (List NuValue) :=
  collectE
    (fun item =>
      match item with
      | .ok r => Except.ok (vcfBodyValue r)
      | .error e =>
        Except.error ("Record reading failed. cause of failure: " ++ e)) stream

/-- `from_vcf_inner` (bcf.rs lines 359–403) after the header was read:
header plus body.  (In the source a record decode error reaches an
`unwrap()` panic; it is modelled as the propagated error.) -/
def from_vcf_inner (headerVal : NuValue)
    (stream : List (Except String VcfRecord)) : Except String NuValue :=
  match iterate_vcf_records stream with
  | .error e => .error e
  | .ok recs => .ok (.recV [("header", headerVal), ("body", .list recs)])

/-! ### GFA (`src/bio_format/gfa.rs`)

The line grammar itself is parsed by the external `gfa` crate; the input
to `lines_to_nuon` is therefore modelled as the list of already-parsed
lines.  Everything from `string_from_utf8` on is translated from
`gfa.rs`. -/

/-- A GFA optional-field value (`gfa::optfields::OptFieldVal`).  Float
payloads carry their rendered decimal text, which the source only ever
converts with `to_string`. -/
inductive OptFieldVal where
  | A (a : Nat)
  | intV (i : Int)
  | float (rendered : String)
  | Z (z : List Nat)
  | J (j : List Nat)
  | H (h : List Nat)
  | BInt (bi : List Int)
  | BFloat (bf : List String)
deriving DecidableEq

/-- A GFA optional field: tag bytes plus value. -/
structure OptField where
  tag : List Nat
  value : OptFieldVal
deriving DecidableEq

/-- `string_from_utf8` (gfa.rs lines 26–32): strict UTF-8 with a
contextual error message. -/
def string_from_utf8 (inner : List Nat) (context : String) :
    Except String String :=
  match utf8Decode inner with
  | some cs => .ok ⟨cs⟩
  | none => .error (context ++ ": invalid utf-8 sequence")

/-- Comma-fold of rendered elements with a trailing comma
(`.fold(String::new(), |a, b| a + &b + ",")`, gfa.rs lines 76–95). -/
def commaFold (elems : List String) : String :=
  elems.foldl (fun a b => a ++ b ++ ",") ""

/-- `parse_optfieldval` (gfa.rs lines 36–97): one optional field to its
`TAG:TYPE:VALUE` string value. -/
def parse_optfieldval (opt_field : OptField) : Except String NuValue :=
  let tag := opt_field.tag
  let tagTypeValue :=
    fun (typ value b : String) =>
      match string_from_utf8 tag ("tag is malformed") with
      | .error e => Except.error e
      | .ok tagString =>
        Except.ok (with_string (tagString ++ ":" ++ typ ++ ":" ++ b ++ value))
  match opt_field.value with
  | .A a =>
    match string_from_utf8 [a] ("\x27A\x27 value malformed") with
    | .error e => .error e
    | .ok s => tagTypeValue ("A") s ("")
  | .intV i => tagTypeValue ("i") (toString i) ("")
  | .float f => tagTypeValue ("f") f ("")
  | .Z z =>
    match string_from_utf8 z ("Z value malformed") with
    | .error e => .error e
    | .ok s => tagTypeValue ("Z") s ("")
  | .J j =>
    match string_from_utf8 j ("J JSON value malformed") with
    | .error e => .error e
    | .ok s => tagTypeValue ("J") s ("")
  | .H h => tagTypeValue ("Z") (commaFold (h.map rustHex5)) ("")
  | .BInt bi => tagTypeValue ("B") (commaFold (bi.map (fun e => toString e))) ("i:")
  | .BFloat bf => tagTypeValue ("B") (commaFold bf) ("f:")

/-- One parsed GFA line (`gfa::gfa::Line`), as handed over by the
external parser.  Orientations are kept as their rendered text. -/
inductive GfaLine where
  | headerL (version : Option (List Nat)) (optional : List OptField)
  | segment (name : List Nat) (sequence : List Nat) (optional : List OptField)
  | link (fromSegment : List Nat) (toSegment : List Nat) (overlap : List Nat)
      (fromOrient toOrient : String) (optional : List OptField)
  | containment (containedName : List Nat) (containerName : List Nat)
      (overlap : List Nat) (containedOrient containerOrient : String)
      (pos : Nat) (optional : List OptField)
  | path (pathName : List Nat) (segmentNames : List Nat)
      (overlaps : List (Option (List Nat))) (optional : List OptField)
deriving DecidableEq

/-- The five accumulators threaded through `lines_to_nuon`. -/
structure GfaAcc where
  headers : List NuValue
  segments : List NuValue
  links : List NuValue
  containments : List NuValue
  paths : List NuValue

/-- Processing of one parsed line inside `lines_to_nuon` (gfa.rs lines
118–239), in the source's evaluation order for fallible conversions. -/
def gfaProcessLine (acc : GfaAcc) (line : GfaLine) : Except String GfaAcc :=
  match line with
  | .headerL version opts =>
    let v := version.bind (fun e => (utf8Decode e).map (fun cs => (⟨cs⟩ : String)))
    match collectE parse_optfieldval opts with
    | .error e => .error e
    | .ok optVals =>
      .ok { acc with
            headers := acc.headers ++
              [.recV [("version",
                       match v with
                       | some s => with_string s
                       | none => with_string ("No version specified")),
                      ("optional_fields", .list optVals)]] }
  | .segment nameB seqB opts =>
    let nameR := string_from_utf8 nameB ("segment name malformed")
    let optsR := collectE parse_optfieldval opts
    match string_from_utf8 seqB ("segment sequence malformed") with
    | .error e => .error e
    | .ok seq =>
      match nameR with
      | .error e => .error e
      | .ok name =>
        match optsR with
        | .error e => .error e
        | .ok optVals =>
          .ok { acc with
                segments := acc.segments ++
                  [.recV [("name", with_string name),
                          ("sequence", with_string seq),
                          ("optional_fields", .list optVals)]] }
  | .link fromB toB overlapB fromOrient toOrient opts =>
    match string_from_utf8 fromB ("from segment malformed") with
    | .error e => .error e
    | .ok fs =>
      match string_from_utf8 toB ("to segment malformed") with
      | .error e => .error e
      | .ok ts =>
        match string_from_utf8 overlapB ("overlap (CIGAR) malformed") with
        | .error e => .error e
        | .ok overlap =>
          match collectE parse_optfieldval opts with
          | .error e => .error e
          | .ok optVals =>
            .ok { acc with
                  links := acc.links ++
                    [.recV [("from_orient", with_string fromOrient),
                            ("to_orient", with_string toOrient),
                            ("from_segment", with_string fs),
                            ("to_segment", with_string ts),
                            ("overlaps", with_string overlap),
                            ("optional_fields", .list optVals)]] }
  | .containment containedB containerB overlapB containedOrient containerOrient pos opts =>
    let containmentNameR := string_from_utf8 containedB ("containment name malformed")
    let containerNameR := string_from_utf8 containerB ("container name malformed")
    let overlapR := string_from_utf8 overlapB ("overlap (CIGAR) malformed")
    let optsR := collectE parse_optfieldval opts
    match containmentNameR with
    | .error e => .error e
    | .ok containmentName =>
      match containerNameR with
      | .error e => .error e
      | .ok containerName =>
        match overlapR with
        | .error e => .error e
        | .ok overlap =>
          match optsR with
          | .error e => .error e
          | .ok optVals =>
            .ok { acc with
                  containments := acc.containments ++
                    [.recV [("containment_name", with_string containmentName),
                            ("containment_orient", with_string containedOrient),
                            ("container_name", with_string containerName),
                            ("container_orient", with_string containerOrient),
                            ("overlap", with_string overlap),
                            ("position", .int pos),
                            ("optional_fields", .list optVals)]] }
  | .path pathNameB segmentNamesB overlapsB opts =>
    let pathNameR := string_from_utf8 pathNameB ("malformed path name")
    match string_from_utf8 segmentNamesB ("segment names in path malformed") with
    | .error e => .error e
    | .ok segmentNames =>
      let overlaps := overlapsB.map (fun o => with_string_or o (""))
      match pathNameR with
      | .error e => .error e
      | .ok pathName =>
        match collectE parse_optfieldval opts with
        | .error e => .error e
        | .ok optVals =>
          .ok { acc with
                paths := acc.paths ++
                  [.recV [("path_name", with_string pathName),
                          ("segment_names", with_string segmentNames),
                          ("overlaps", .list overlaps),
                          ("optional_fields", .list optVals)]] }

/-- `lines_to_nuon` (gfa.rs lines 101–242) over the already-parsed,
non-blank lines: fold with error propagation. -/
def lines_to_nuon (lines : List GfaLine) (acc : GfaAcc) : Except String GfaAcc :=
  match lines with
  | [] => .ok acc
  | l :: ls =>
    match gfaProcessLine acc l with
    | .error e => .error e
    | .ok acc2 => lines_to_nuon ls acc2

/-- `from_gfa_inner` (gfa.rs lines 244–302) after the external line
parser: assemble the result record, with the "No header" sentinel when
no header line was seen. -/
def from_gfa_inner (lines : List GfaLine) : Except String NuValue :=
  match lines_to_nuon lines ⟨[], [], [], [], []⟩ with
  | .error e => .error e
  | .ok acc =>
    .ok (.recV [("header", (acc.headers.head?).getD (with_string ("No header"))),
                ("segments", .list acc.segments),
                ("links", .list acc.links),
                ("containments", .list acc.containments),
                ("paths", .list acc.paths)])

/-- Success test for `Except`. -/
def isOkE {ε α : Type} : Except ε α → Bool
  | .ok _ => true
  | .error _ => false

/-- The `body` list of a `header`/`body` result record. -/
def bodyList (v : NuValue) : List NuValue :=
  match recordGet v ("body") with
  | some (.list l) => l
  | _ => []

/-- A concrete alignment record with every optional accessor absent
(used for concrete evaluations). -/
def sampleSam : SamRecord :=
  ⟨none, none, none, none, none, 0, 0, 0, none, none, none, []⟩

/-- A concrete alignment record whose read name is the ill-formed byte
string `[0xFF]`. -/
def sampleSamBad : SamRecord :=
  { sampleSam with name := some [0xFF] }

end NuBio

namespace NuBio

/-! ## Basic lemmas about line splitting -/

theorem splitOnNl_ne_nil (cs : List Char) : splitOnNl cs ≠ [] := by
  induction cs with
  | nil => simp [splitOnNl]
  | cons c cs ih =>
    simp only [splitOnNl]
    split
    · simp
    · cases h : splitOnNl cs with
      | nil => simp
      | cons l ls => simp [h]

theorem splitOnNl_append_nl (a b : List Char) (ha : '\n' ∉ a) :
    splitOnNl (a ++ '\n' :: b) = a :: splitOnNl b := by
  induction a with
  | nil => simp [splitOnNl]
  | cons c a ih =>
    have hc : c ≠ '\n' := fun h => ha (h ▸ List.mem_cons_self c a)
    have ha' : '\n' ∉ a := fun h => ha (List.mem_cons_of_mem _ h)
    simp only [List.cons_append, splitOnNl, if_neg hc, List.append_eq, ih ha']

theorem mem_splitOnNl_no_nl (cs : List Char) (l : List Char)
    (hl : l ∈ splitOnNl cs) : '\n' ∉ l := by
  induction cs generalizing l with
  | nil =>
    simp only [splitOnNl, List.mem_singleton] at hl
    subst hl; simp
  | cons c cs ih =>
    simp only [splitOnNl] at hl
    by_cases hc : c = '\n'
    · rw [if_pos hc] at hl
      rcases List.mem_cons.mp hl with h | h
      · subst h; simp
      · exact ih l h
    · rw [if_neg hc] at hl
      rcases hsp : splitOnNl cs with _ | ⟨m, ms⟩
      · exact absurd hsp (splitOnNl_ne_nil cs)
      · rw [hsp] at hl
        rcases List.mem_cons.mp hl with h | h
        · subst h
          intro hmem
          rcases List.mem_cons.mp hmem with h' | h'
          · exact hc h'.symm
          · exact ih m (hsp ▸ List.mem_cons_self m ms) h'
        · exact ih l (hsp ▸ List.mem_cons_of_mem m h)

/-! ## Helper lemmas about `collectE` and the record streams -/

theorem collectE_map_ok {a b c : Type} (g : a → b) (f : b → Except String c)
    (h : a → c) (hf : ∀ x, f (g x) = .ok (h x)) (l : List a) :
    collectE f (l.map g) = .ok (l.map h) := by
  induction l with
  | nil => rfl
  | cons x xs ih => simp only [List.map_cons, collectE, hf x, ih]

theorem takeOks_map_ok (recs : List SamRecord) :
    takeOks (recs.map Except.ok) = recs := by
  induction recs with
  | nil => rfl
  | cons r rs ih => simp only [List.map_cons, takeOks, ih]

theorem takeOks_upto_fault (pre : List SamRecord) (e : String)
    (rest : List (Except String SamRecord)) :
    takeOks (pre.map Except.ok ++ Except.error e :: rest) = pre := by
  induction pre with
  | nil => rfl
  | cons r rs ih => simp only [List.map_cons, List.cons_append, takeOks, List.append_eq, ih]

/-! ## Claim C2 — fixed schema columns -/

/-- C2 (amended): every alignment-family (SAM/BAM/CRAM) body record has
exactly the twelve alignment schema columns in order, and FASTA/FASTQ
records have exactly their flag-dependent column lists; but every
VCF/BCF body record is an empty record (zero columns), because the
source zips the ten-name schema with an always-empty value vector. -/
theorem record_schema_columns :
    (∀ r : SamRecord, recordCols (bamBodyValue r) = BAM_COLUMNS) ∧
    (∀ r : VcfRecord, recordCols (vcfBodyValue r) = []) ∧
    (∀ (d : Bool) (r : FastaRecC),
      recordCols (fastaRecordValue d r) = fasta_cols d) ∧
    (∀ (d q : Bool) (r : FastqRecC),
      recordCols (fastqRecordValue d q r) = fastq_cols d q) := by
  refine ⟨fun r => rfl, fun r => rfl, ?_, ?_⟩
  · intro d r
    cases d <;> rfl
  · intro d q r
    cases d <;> cases q <;> rfl

/-- C2 (counterexample): a concrete decoded variant record produces a
body record with no columns at all, not the ten variant columns. -/
theorem vcf_schema_counterexample :
    recordCols (vcfBodyValue ⟨[]⟩) = [] ∧ VCF_COLUMNS ≠ [] := by
  exact ⟨rfl, by decide⟩

/-! ## Claim C3 — CRAM partial results -/

/-- C3 (amended): on a record-decode fault, the CRAM adapter returns a
successful `header`/`body` result whose body is exactly the records
decoded before the first fault — but without any `note` column; the
diagnostic note exists only on the decoder-panic path (where the body is
empty). -/
theorem cram_prefix_result :
    (∀ (hv : NuValue) (pre : List SamRecord) (e : String)
        (rest : List (Except String SamRecord)),
      from_cram_inner hv (pre.map Except.ok ++ Except.error e :: rest) =
        .recV [("header", hv), ("body", .list (pre.map bamBodyValue))]) ∧
    (∀ (hv : NuValue) (stream : List (Except String SamRecord)),
      recordCols (from_cram_inner hv stream) = ["header", "body"]) := by
  constructor
  · intro hv pre e rest
    simp only [from_cram_inner, takeOks_upto_fault]
  · intro hv stream
    rfl

/-- C3 (counterexample): for a concrete stream with one good record and
then a decode fault, the result's columns are exactly `header` and
`body` — there is no `note` annotation on the partial result. -/
theorem cram_note_counterexample :
    from_cram_inner (NuValue.str ("H")) [Except.ok sampleSam, Except.error ("decode fault")] =
      .recV [("header", NuValue.str ("H")),
             ("body", .list [bamBodyValue sampleSam])] ∧
    (("note" : String)) ∉
      recordCols (from_cram_inner (NuValue.str ("H"))
        [Except.ok sampleSam, Except.error ("decode fault")]) := by
  exact ⟨rfl, by decide⟩

/-! ## Claim C4 — empty input lists for the reverse mappers -/

/-- C4 (amended): an empty input list yields the empty output string for
`to fasta`, but `to fastq` rejects it with the "No value" error. -/
theorem empty_list_reverse_mappers :
    nuon_to_fasta (NuValue.list []) = .ok (.str ("")) ∧
    nuon_to_fastq (NuValue.list []) =
      .error ("No value: There was no first value to call `to fastq` on") :=
  ⟨rfl, rfl⟩

/-- C4 (counterexample): `nuon_to_fastq` on the empty list is an error,
not a successful empty string. -/
theorem empty_list_to_fastq_counterexample :
    nuon_to_fastq (NuValue.list []) =
      .error ("No value: There was no first value to call `to fastq` on") :=
  rfl

/-! ## Claim C5 — FASTQ without quality scores -/

theorem nuon_to_fastq_no_quality_col (fields : List (String × NuValue))
    (rest : List NuValue)
    (h : (("quality_scores" : String)) ∉ fields.map Prod.fst) :
    nuon_to_fastq (.list (.recV fields :: rest)) =
      .error ("No quality scores: Consider using `to fasta` if you don\x27t have any quality scores, or pass the -q option on a fastq") := by
  have hc : (fields.map Prod.fst).contains ("quality_scores") = false := by
    rw [Bool.eq_false_iff]
    intro htrue
    exact h (List.elem_iff.mp htrue)
  simp only [nuon_to_fastq, List.head?, asRecE, hc, Bool.false_eq_true,
    if_false]

/-- C5: a non-empty structured list whose first record has no
`quality_scores` column makes `nuon_to_fastq` fail with the specific
error that points at the FASTA path, producing no output text. -/
theorem fastq_missing_quality_error (fields : List (String × NuValue))
    (rest : List NuValue)
    (h : (("quality_scores" : String)) ∉ fields.map Prod.fst) :
    nuon_to_fastq (.list (.recV fields :: rest)) =
      .error ("No quality scores: Consider using `to fasta` if you don\x27t have any quality scores, or pass the -q option on a fastq") :=
  nuon_to_fastq_no_quality_col fields rest h

/-- C5 witness at a concrete two-column record. -/
theorem fastq_missing_quality_error_witness :
    ((("quality_scores" : String)) ∉
      ([("id", NuValue.str ("r1")), ("sequence", NuValue.str ("ACGT"))].map Prod.fst)) ∧
    nuon_to_fastq (.list [.recV [("id", NuValue.str ("r1")),
        ("sequence", NuValue.str ("ACGT"))]]) =
      .error ("No quality scores: Consider using `to fasta` if you don\x27t have any quality scores, or pass the -q option on a fastq") :=
  ⟨by decide,
   fastq_missing_quality_error
     [("id", NuValue.str ("r1")), ("sequence", NuValue.str ("ACGT"))] []
     (by decide)⟩

/-! ## Claim C10 — non-list inputs to the reverse mappers -/

/-- C10: any non-list input is silently skipped by both reverse mappers,
which return the empty string (so the FASTQ missing-quality check is
never reached). -/
theorem nonlist_reverse_mappers (v : NuValue) (h : isList v = false) :
    nuon_to_fasta v = .ok (.str ("")) ∧ nuon_to_fastq v = .ok (.str ("")) := by
  cases v with
  | list l => simp [isList] at h
  | str s => exact ⟨rfl, rfl⟩
  | int i => exact ⟨rfl, rfl⟩
  | recV f => exact ⟨rfl, rfl⟩

/-! ## Claim C6 — read-name placeholder and flags rendering -/

/-- C6 (amended): when the read name is absent the emitted `read_name`
column is the sentinel "No read name." (not "*"); the `flags` column is
always the bit-flags rendered as zero-padded `0x`-prefixed hexadecimal
of width six (absent flags default to 0). -/
theorem alignment_read_name_and_flags :
    (∀ r : SamRecord, r.name = none →
      (create_record_values r).head? = some (.str ("No read name."))) ∧
    (∀ r : SamRecord,
      (create_record_values r).get? 1 =
        some (.str (rustHex6 (r.flags.getD 0)))) := by
  constructor
  · intro r h
    show some (with_string_or r.name ("No read name.")) = _
    rw [h]
    rfl
  · intro r
    rfl

/-- C6 witness: the nameless sample record, and the concrete rendering
of flag value 74. -/
theorem alignment_read_name_and_flags_witness :
    sampleSam.name = none ∧
    (create_record_values sampleSam).head? = some (.str ("No read name.")) ∧
    (create_record_values sampleSam).get? 1 =
      some (.str (rustHex6 (sampleSam.flags.getD 0))) ∧
    rustHex6 74 = "0x004a" :=
  ⟨rfl, alignment_read_name_and_flags.1 sampleSam rfl,
   alignment_read_name_and_flags.2 sampleSam, by decide⟩

/-- C6 (counterexample): for a record without a read name the emitted
`read_name` value is "No read name.", which is not the claimed `*`. -/
theorem read_name_placeholder_counterexample :
    (create_record_values sampleSam).head? = some (.str ("No read name.")) ∧
    ("No read name." : String) ≠ ("*" : String) :=
  ⟨rfl, by decide⟩

/-! ## Claim C8 — numeric-array auxiliary fields -/

/-- C8 (amended): in the GFA typed-tag codec a numeric array is emitted
as type letter `B` with nested element-type prefix (`i:`/`f:`) and the
elements comma-folded with a comma after every element (in particular a
trailing comma); in the SAM-family data column a numeric array is
instead emitted as the fixed placeholder text `B:array` with no element
prefix and no elements. -/
theorem typed_tag_array_forms :
    (∀ (tag : List Nat) (ts : String) (bi : List Int),
      string_from_utf8 tag ("tag is malformed") = .ok ts →
      parse_optfieldval ⟨tag, .BInt bi⟩ =
        .ok (.str (ts ++ ":" ++ "B" ++ ":" ++ "i:" ++
          commaFold (bi.map (fun e => toString e))))) ∧
    (∀ (tag : List Nat) (ts : String) (bf : List String),
      string_from_utf8 tag ("tag is malformed") = .ok ts →
      parse_optfieldval ⟨tag, .BFloat bf⟩ =
        .ok (.str (ts ++ ":" ++ "B" ++ ":" ++ "f:" ++ commaFold bf))) ∧
    (∀ tag : String,
      samTagString tag SamFieldValue.arrayV = tag ++ ":" ++ "B:array") ∧
    (∀ (es : List String) (e : String),
      commaFold (es ++ [e]) = commaFold es ++ e ++ ",") := by
  refine ⟨?_, ?_, fun tag => rfl, ?_⟩
  · intro tag ts bi h
    simp only [parse_optfieldval]
    rw [h]
    rfl
  · intro tag ts bf h
    simp only [parse_optfieldval]
    rw [h]
    rfl
  · intro es e
    simp only [commaFold, List.foldl_append, List.foldl_cons, List.foldl_nil]

/-- C8 witness: a concrete integer-array field under the two-byte tag
`XY`, with the fully evaluated canonical string. -/
theorem typed_tag_array_forms_witness :
    string_from_utf8 [88, 89] ("tag is malformed") = .ok ("XY") ∧
    parse_optfieldval ⟨[88, 89], OptFieldVal.BInt [1, 2]⟩ =
      .ok (.str ("XY" ++ ":" ++ "B" ++ ":" ++ "i:" ++
        commaFold ([(1 : Int), 2].map (fun e => toString e)))) ∧
    ("XY" ++ ":" ++ "B" ++ ":" ++ "i:" ++
        commaFold ([(1 : Int), 2].map (fun e => toString e))) = "XY:B:i:1,2," :=
  ⟨rfl, typed_tag_array_forms.1 [88, 89] ("XY") [1, 2] rfl, by decide⟩

/-- C8 (counterexample): the SAM-family emission for an array field has
no trailing comma and no nested `i:`/`f:` element-type prefix. -/
theorem sam_array_tag_counterexample :
    samTagString ("XY") SamFieldValue.arrayV = "XY:B:array" ∧
    ("XY:B:array").data.getLast? ≠ some ',' ∧
    ("XY:B:array").data.take 7 ≠ ("XY:B:i:").data ∧
    ("XY:B:array").data.take 7 ≠ ("XY:B:f:").data :=
  ⟨by decide, by decide, by decide, by decide⟩

/-! ## Claim C9 — body length equals decoded-record count -/

theorem collectE_ok_length {a b : Type} (f : a → Except String b)
    (l : List a) (ys : List b) (h : collectE f l = .ok ys) :
    ys.length = l.length := by
  induction l generalizing ys with
  | nil =>
    simp only [collectE] at h
    cases h
    rfl
  | cons x xs ih =>
    simp only [collectE] at h
    cases hfx : f x with
    | error e => rw [hfx] at h; cases h
    | ok y =>
      rw [hfx] at h
      cases hrec : collectE f xs with
      | error e => rw [hrec] at h; cases h
      | ok ys' =>
        rw [hrec] at h
        cases h
        simp [ih ys' hrec]

theorem collectE_ok_all {a b : Type} (f : a → Except String b)
    (l : List a) (ys : List b) (h : collectE f l = .ok ys) :
    ∀ x ∈ l, isOkE (f x) = true := by
  induction l generalizing ys with
  | nil => intro x hx; cases hx
  | cons z xs ih =>
    simp only [collectE] at h
    cases hfz : f z with
    | error e => rw [hfz] at h; cases h
    | ok y =>
      rw [hfz] at h
      cases hrec : collectE f xs with
      | error e => rw [hrec] at h; cases h
      | ok ys' =>
        intro x hx
        rcases List.mem_cons.mp hx with rfl | hx'
        · rw [hfz]; rfl
        · exact ih ys' hrec x hx'

/-- C9: for BAM/SAM and VCF/BCF a successful result's body length equals
the input stream length (and success forces every record to have decoded);
for CRAM the body length is the number of records decoded strictly before
the first fault, and equals the full count when no fault occurs. -/
theorem body_length_matches :
    (∀ (hv : NuValue) (stream : List (Except String SamRecord)) (v : NuValue),
      from_bam_inner hv stream = .ok v →
      (bodyList v).length = stream.length ∧ ∀ x ∈ stream, isOkE x = true) ∧
    (∀ (hv : NuValue) (stream : List (Except String VcfRecord)) (v : NuValue),
      from_vcf_inner hv stream = .ok v →
      (bodyList v).length = stream.length ∧ ∀ x ∈ stream, isOkE x = true) ∧
    (∀ (hv : NuValue) (pre : List SamRecord) (e : String)
        (rest : List (Except String SamRecord)),
      (bodyList (from_cram_inner hv
        (pre.map Except.ok ++ Except.error e :: rest))).length = pre.length) ∧
    (∀ (hv : NuValue) (recs : List SamRecord),
      (bodyList (from_cram_inner hv (recs.map Except.ok))).length
        = recs.length) := by
  refine ⟨?_, ?_, ?_, ?_⟩
  · intro hv stream v h
    simp only [from_bam_inner] at h
    cases hcoll : collectE
        (fun item =>
          match item with
          | .ok r => Except.ok (bamBodyValue r)
          | .error e =>
            Except.error ("Record reading failed. cause of failure: " ++ e))
        stream with
    | error e => rw [hcoll] at h; cases h
    | ok recs =>
      rw [hcoll] at h
      cases h
      constructor
      · exact collectE_ok_length _ stream recs hcoll
      · intro x hx
        have := collectE_ok_all _ stream recs hcoll x hx
        cases x with
        | ok r => rfl
        | error e => simp [isOkE] at this
  · intro hv stream v h
    simp only [from_vcf_inner, iterate_vcf_records] at h
    cases hcoll : collectE
        (fun item =>
          match item with
          | .ok r => Except.ok (vcfBodyValue r)
          | .error e =>
            Except.error ("Record reading failed. cause of failure: " ++ e))
        stream with
    | error e => rw [hcoll] at h; cases h
    | ok recs =>
      rw [hcoll] at h
      cases h
      constructor
      · exact collectE_ok_length _ stream recs hcoll
      · intro x hx
        have := collectE_ok_all _ stream recs hcoll x hx
        cases x with
        | ok r => rfl
        | error e => simp [isOkE] at this
  · intro hv pre e rest
    show ((takeOks (pre.map Except.ok ++ Except.error e :: rest)).map
      bamBodyValue).length = pre.length
    rw [takeOks_upto_fault]
    exact List.length_map pre bamBodyValue
  · intro hv recs
    show ((takeOks (recs.map Except.ok)).map bamBodyValue).length = recs.length
    rw [takeOks_map_ok]
    exact List.length_map recs bamBodyValue

/-- C9 witness: one successfully decoded alignment record gives a body of
length one. -/
theorem body_length_matches_witness :
    from_bam_inner (NuValue.str ("H")) [Except.ok sampleSam] =
      .ok (.recV [("header", NuValue.str ("H")),
                  ("body", .list [bamBodyValue sampleSam])]) ∧
    (bodyList (.recV [("header", NuValue.str ("H")),
                  ("body", .list [bamBodyValue sampleSam])])).length = 1 :=
  ⟨rfl,
   (body_length_matches.1 (NuValue.str ("H")) [Except.ok sampleSam] _ rfl).1⟩

/-! ## Claim C7 — UTF-8 policy by format family -/

theorem gfa_segment_bad_line (nb sb : List Nat) (opts : List OptField)
    (hnb : utf8Decode nb = none) (acc : GfaAcc) :
    isOkE (gfaProcessLine acc (.segment nb sb opts)) = false := by
  have hname : string_from_utf8 nb ("segment name malformed") =
      .error ("segment name malformed" ++ ": invalid utf-8 sequence") := by
    simp only [string_from_utf8, hnb]
  simp only [gfaProcessLine, hname]
  cases hseq : string_from_utf8 sb ("segment sequence malformed") with
  | error e => rfl
  | ok seq => rfl

theorem lines_to_nuon_bad (l : GfaLine)
    (hl : ∀ acc, isOkE (gfaProcessLine acc l) = false)
    (pre suf : List GfaLine) :
    ∀ acc, isOkE (lines_to_nuon (pre ++ l :: suf) acc) = false := by
  induction pre with
  | nil =>
    intro acc
    simp only [List.nil_append, lines_to_nuon]
    cases hpl : gfaProcessLine acc l with
    | error e => rfl
    | ok acc2 =>
      have hbad := hl acc
      rw [hpl] at hbad
      simp [isOkE] at hbad
  | cons p pre ih =>
    intro acc
    simp only [List.cons_append, lines_to_nuon]
    cases hpp : gfaProcessLine acc p with
    | error e => rfl
    | ok acc2 => exact ih acc2

theorem utf8Go_none_repl (fuel : Nat) :
    ∀ bytes : List Nat, bytes.length ≤ fuel →
      utf8DecodeGo fuel bytes = none → replChar ∈ utf8LossyGo fuel bytes := by
  induction fuel with
  | zero =>
    intro bytes hlen h
    cases bytes with
    | nil => simp [utf8DecodeGo] at h
    | cons b bs => simp at hlen
  | succ fuel ih =>
    intro bytes hlen h
    cases bytes with
    | nil => simp [utf8DecodeGo] at h
    | cons b bs =>
      rw [utf8DecodeGo.eq_def] at h
      rw [utf8LossyGo.eq_def]
      dsimp only [] at h ⊢
      have hlen1 : bs.length ≤ fuel := by
        simp only [List.length_cons] at hlen
        omega
      by_cases hb : b < 0x80
      · rw [if_pos hb] at h ⊢
        rw [Option.map_eq_none'] at h
        exact List.mem_cons_of_mem _ (ih bs hlen1 h)
      · rw [if_neg hb] at h ⊢
        by_cases hb2 : b < 0xC2
        · rw [if_pos hb2] at h ⊢
          exact List.mem_cons_self _ _
        · rw [if_neg hb2] at h ⊢
          by_cases hb3 : b < 0xE0
          · rw [if_pos hb3] at h ⊢
            cases bs with
            | nil => exact List.mem_cons_self _ _
            | cons b1 bs1 =>
              dsimp only [] at h ⊢
              have hlen2 : bs1.length ≤ fuel := by
                simp only [List.length_cons] at hlen
                omega
              by_cases hc : isContByte b1
              · rw [if_pos hc] at h ⊢
                rw [Option.map_eq_none'] at h
                exact List.mem_cons_of_mem _ (ih bs1 hlen2 h)
              · rw [if_neg hc] at h ⊢
                exact List.mem_cons_self _ _
          · rw [if_neg hb3] at h ⊢
            by_cases hb4 : b < 0xF0
            · rw [if_pos hb4] at h ⊢
              cases bs with
              | nil => exact List.mem_cons_self _ _
              | cons b1 bs' =>
                cases bs' with
                | nil => exact List.mem_cons_self _ _
                | cons b2 bs2 =>
                  dsimp only [] at h ⊢
                  have hlen2 : bs2.length ≤ fuel := by
                    simp only [List.length_cons] at hlen
                    omega
                  by_cases hc : isContByte b1 ∧ isContByte b2 ∧
                      (b = 0xE0 → 0xA0 ≤ b1) ∧ (b = 0xED → b1 < 0xA0)
                  · rw [if_pos hc] at h ⊢
                    rw [Option.map_eq_none'] at h
                    exact List.mem_cons_of_mem _ (ih bs2 hlen2 h)
                  · rw [if_neg hc] at h ⊢
                    exact List.mem_cons_self _ _
            · rw [if_neg hb4] at h ⊢
              by_cases hb5 : b < 0xF5
              · rw [if_pos hb5] at h ⊢
                cases bs with
                | nil => exact List.mem_cons_self _ _
                | cons b1 bs' =>
                  cases bs' with
                  | nil => exact List.mem_cons_self _ _
                  | cons b2 bs'' =>
                    cases bs'' with
                    | nil => exact List.mem_cons_self _ _
                    | cons b3 bs3 =>
                      dsimp only [] at h ⊢
                      have hlen2 : bs3.length ≤ fuel := by
                        simp only [List.length_cons] at hlen
                        omega
                      by_cases hc : isContByte b1 ∧ isContByte b2 ∧
                          isContByte b3 ∧ (b = 0xF0 → 0x90 ≤ b1) ∧
                          (b = 0xF4 → b1 < 0x90)
                      · rw [if_pos hc] at h ⊢
                        rw [Option.map_eq_none'] at h
                        exact List.mem_cons_of_mem _ (ih bs3 hlen2 h)
                      · rw [if_neg hc] at h ⊢
                        exact List.mem_cons_self _ _
              · rw [if_neg hb5] at h ⊢
                exact List.mem_cons_self _ _

theorem utf8Decode_none_repl (b : List Nat) (h : utf8Decode b = none) :
    replChar ∈ utf8Lossy b :=
  utf8Go_none_repl b.length b (Nat.le_refl _) h

theorem collectE_bam_ok (recs : List SamRecord) :
    collectE
      (fun item =>
        match item with
        | .ok r => Except.ok (bamBodyValue r)
        | .error e =>
          Except.error ("Record reading failed. cause of failure: " ++ e))
      (recs.map Except.ok) = .ok (recs.map bamBodyValue) := by
  induction recs with
  | nil => rfl
  | cons r rs ih => simp only [List.map_cons, collectE, ih]

/-- C7: a GFA segment whose name is not valid UTF-8 makes the whole GFA
invocation fail; a SAM/BAM read name is emitted through lossy decoding
(containing the replacement character whenever the bytes are ill-formed)
and decoding continues: a stream of decodable records always maps to a
full body. -/
theorem utf8_policy_by_format :
    (∀ (pre suf : List GfaLine) (nb sb : List Nat) (opts : List OptField),
      utf8Decode nb = none →
      isOkE (from_gfa_inner (pre ++ GfaLine.segment nb sb opts :: suf)) = false) ∧
    (∀ (r : SamRecord) (b : List Nat), r.name = some b →
      (create_record_values r).head? = some (.str ⟨utf8Lossy b⟩)) ∧
    (∀ b : List Nat, utf8Decode b = none → replChar ∈ utf8Lossy b) ∧
    (∀ (hv : NuValue) (recs : List SamRecord),
      from_bam_inner hv (recs.map Except.ok) =
        .ok (.recV [("header", hv), ("body", .list (recs.map bamBodyValue))])) := by
  refine ⟨?_, ?_, utf8Decode_none_repl, ?_⟩
  · intro pre suf nb sb opts hnb
    have hbad := lines_to_nuon_bad (.segment nb sb opts)
      (fun acc => gfa_segment_bad_line nb sb opts hnb acc) pre suf ⟨[], [], [], [], []⟩
    simp only [from_gfa_inner]
    cases hln : lines_to_nuon (pre ++ GfaLine.segment nb sb opts :: suf)
        ⟨[], [], [], [], []⟩ with
    | error e => rfl
    | ok acc =>
      rw [hln] at hbad
      simp [isOkE] at hbad
  · intro r b hname
    show some (with_string_or r.name ("No read name.")) = _
    rw [hname]
    rfl
  · intro hv recs
    simp only [from_bam_inner, collectE_bam_ok]

/-- C7 witness: the single ill-formed byte `0xFF` as a GFA segment name
and as a SAM read name. -/
theorem utf8_policy_by_format_witness :
    utf8Decode [255] = none ∧
    isOkE (from_gfa_inner [GfaLine.segment [255] [65] []]) = false ∧
    sampleSamBad.name = some [255] ∧
    (create_record_values sampleSamBad).head? =
      some (.str ⟨utf8Lossy [255]⟩) ∧
    replChar ∈ utf8Lossy [255] :=
  ⟨rfl,
   utf8_policy_by_format.1 [] [] [255] [65] [] rfl,
   rfl,
   utf8_policy_by_format.2.1 sampleSamBad [255] rfl,
   utf8_policy_by_format.2.2.1 [255] rfl⟩

/-! ## Claim C1 — FASTA/FASTQ round trip

The plan: a forward-mapped record list is well formed (`FastaWF`);
serializing it produces one text chunk per record
(`nuon_to_fasta_forward`); splitting the concatenated chunks back into
lines recovers the interleaved definition/sequence lines
(`splitOnNl_fasta_flatten`); re-parsing those lines recovers each record
up to the flag-shaped description normal form (`parseFastaC_lines`);
and the record mapper cannot distinguish a record from its normal form
(`fastaRecordValue_reParse`). -/

theorem takeWhile_nospace (n : List Char) (h : ' ' ∉ n) :
    n.takeWhile (fun c => c ≠ ' ') = n := by
  induction n with
  | nil => rfl
  | cons c n ih =>
    have hc : c ≠ ' ' := fun hcc => h (hcc ▸ List.mem_cons_self c n)
    have h' : ' ' ∉ n := fun hm => h (List.mem_cons_of_mem _ hm)
    rw [List.takeWhile_cons, if_pos (decide_eq_true hc), ih h']

theorem dropWhile_nospace (n : List Char) (h : ' ' ∉ n) :
    n.dropWhile (fun c => c ≠ ' ') = [] := by
  induction n with
  | nil => rfl
  | cons c n ih =>
    have hc : c ≠ ' ' := fun hcc => h (hcc ▸ List.mem_cons_self c n)
    have h' : ' ' ∉ n := fun hm => h (List.mem_cons_of_mem _ hm)
    rw [List.dropWhile_cons, if_pos (decide_eq_true hc), ih h']

theorem takeWhile_append_space (n d : List Char) (h : ' ' ∉ n) :
    (n ++ ' ' :: d).takeWhile (fun c => c ≠ ' ') = n := by
  induction n with
  | nil =>
    rw [List.nil_append, List.takeWhile_cons, if_neg]
    simp
  | cons c n ih =>
    have hc : c ≠ ' ' := fun hcc => h (hcc ▸ List.mem_cons_self c n)
    have h' : ' ' ∉ n := fun hm => h (List.mem_cons_of_mem _ hm)
    rw [List.cons_append, List.takeWhile_cons, if_pos (decide_eq_true hc), ih h']

theorem dropWhile_append_space (n d : List Char) (h : ' ' ∉ n) :
    (n ++ ' ' :: d).dropWhile (fun c => c ≠ ' ') = ' ' :: d := by
  induction n with
  | nil =>
    rw [List.nil_append, List.dropWhile_cons, if_neg]
    simp
  | cons c n ih =>
    have hc : c ≠ ' ' := fun hcc => h (hcc ▸ List.mem_cons_self c n)
    have h' : ' ' ∉ n := fun hm => h (List.mem_cons_of_mem _ hm)
    rw [List.cons_append, List.dropWhile_cons, if_pos (decide_eq_true hc), ih h']

theorem splitDefC_no_space (n : List Char) (h : ' ' ∉ n) :
    splitDefC n = (n, none) := by
  simp only [splitDefC]
  rw [dropWhile_nospace n h]
  rw [takeWhile_nospace n h]

theorem splitDefC_with_space (n d : List Char) (h : ' ' ∉ n) :
    splitDefC (n ++ ' ' :: d) = (n, some d) := by
  simp only [splitDefC]
  rw [dropWhile_append_space n d h]
  rw [takeWhile_append_space n d h]

theorem defLineBody?_some {l dd : List Char} (h : defLineBody? l = some dd) :
    l = '>' :: dd := by
  cases l with
  | nil => cases h
  | cons c x =>
    by_cases hc : c = '>'
    · rw [defLineBody?, if_pos hc] at h
      cases h
      rw [hc]
    · rw [defLineBody?, if_neg hc] at h
      cases h

theorem defLineBody?_of_head {l : List Char} (h : l.head? ≠ some '>') :
    defLineBody? l = none := by
  cases l with
  | nil => rfl
  | cons c x =>
    have hc : c ≠ '>' := by
      intro hcc
      exact h (by rw [hcc]; rfl)
    rw [defLineBody?, if_neg hc]

theorem defLineBody?_none_head {l : List Char} (h : defLineBody? l = none) :
    l.head? ≠ some '>' := by
  cases l with
  | nil => simp
  | cons c x =>
    by_cases hc : c = '>'
    · rw [defLineBody?, if_pos hc] at h
      cases h
    · simp only [List.head?, ne_eq, Option.some.injEq]
      exact fun hcc => hc hcc

theorem splitDefC_prop (dd : List Char) (hnl : '\n' ∉ dd) :
    ' ' ∉ (splitDefC dd).1 ∧ '\n' ∉ (splitDefC dd).1 ∧
    '\n' ∉ ((splitDefC dd).2.getD []) := by
  refine ⟨?_, ?_, ?_⟩
  · intro hm
    have h1 : (splitDefC dd).1 = dd.takeWhile (fun c => c ≠ ' ') := by
      rw [splitDefC]
      cases dd.dropWhile (fun c => c ≠ ' ') <;> rfl
    rw [h1] at hm
    have := List.mem_takeWhile_imp hm
    simp at this
  · intro hm
    have h1 : (splitDefC dd).1 = dd.takeWhile (fun c => c ≠ ' ') := by
      rw [splitDefC]
      cases dd.dropWhile (fun c => c ≠ ' ') <;> rfl
    rw [h1] at hm
    exact hnl ((List.takeWhile_sublist _).subset hm)
  · intro hm
    rw [splitDefC] at hm
    cases hdw : dd.dropWhile (fun c => c ≠ ' ') with
    | nil => rw [hdw] at hm; simp at hm
    | cons x d =>
      rw [hdw] at hm
      simp only [Option.getD_some] at hm
      have hmem : '\n' ∈ dd.dropWhile (fun c => c ≠ ' ') := by
        rw [hdw]
        exact List.mem_cons_of_mem x hm
      exact hnl ((List.dropWhile_sublist _).subset hmem)

theorem parseFastaAux_wf (lines : List (List Char))
    (hlines : ∀ l ∈ lines, '\n' ∉ l) :
    ∀ n ds acc, ' ' ∉ n → '\n' ∉ n → '\n' ∉ ds.getD [] →
      '\n' ∉ acc → acc.head? ≠ some '>' →
      ∀ r ∈ parseFastaAux n ds acc lines, FastaWF r := by
  induction lines with
  | nil =>
    intro n ds acc h1 h2 h3 h4 h5 r hr
    simp only [parseFastaAux, List.mem_singleton] at hr
    subst hr
    exact ⟨h1, h2, h3, h4, h5⟩
  | cons l ls ih =>
    intro n ds acc h1 h2 h3 h4 h5 r hr
    have hlnl : '\n' ∉ l := hlines l (List.mem_cons_self l ls)
    have hlines' : ∀ m ∈ ls, '\n' ∉ m :=
      fun m hm => hlines m (List.mem_cons_of_mem _ hm)
    simp only [parseFastaAux] at hr
    cases hdl : defLineBody? l with
    | some dd =>
      rw [hdl] at hr
      have hldd : l = '>' :: dd := defLineBody?_some hdl
      have hddnl : '\n' ∉ dd := by
        intro hmem
        exact hlnl (hldd ▸ List.mem_cons_of_mem _ hmem)
      obtain ⟨p1, p2, p3⟩ := splitDefC_prop dd hddnl
      rcases List.mem_cons.mp hr with hre | hrt
      · subst hre
        exact ⟨h1, h2, h3, h4, h5⟩
      · exact ih hlines' _ _ [] p1 p2 p3 (by simp) (by simp) r hrt
    | none =>
      rw [hdl] at hr
      have hhd : (acc ++ l).head? ≠ some '>' := by
        cases acc with
        | nil =>
          simp only [List.nil_append]
          exact defLineBody?_none_head hdl
        | cons a acc' =>
          simp only [List.cons_append, List.head?, ne_eq]
          simp only [List.head?, ne_eq] at h5
          exact h5
      have hnl4 : '\n' ∉ acc ++ l := by
        intro hmem
        rcases List.mem_append.mp hmem with hmm | hmm
        · exact h4 hmm
        · exact hlnl hmm
      exact ih hlines' n ds (acc ++ l) h1 h2 h3 hnl4 hhd r hr

theorem parseFastaC_wf (lines : List (List Char))
    (hlines : ∀ l ∈ lines, '\n' ∉ l) :
    ∀ r ∈ parseFastaC lines, FastaWF r := by
  induction lines with
  | nil => intro r hr; cases hr
  | cons l ls ih =>
    intro r hr
    have hlnl : '\n' ∉ l := hlines l (List.mem_cons_self l ls)
    have hlines' : ∀ m ∈ ls, '\n' ∉ m :=
      fun m hm => hlines m (List.mem_cons_of_mem _ hm)
    simp only [parseFastaC] at hr
    cases hdl : defLineBody? l with
    | some dd =>
      rw [hdl] at hr
      have hldd : l = '>' :: dd := defLineBody?_some hdl
      have hddnl : '\n' ∉ dd := by
        intro hmem
        exact hlnl (hldd ▸ List.mem_cons_of_mem _ hmem)
      obtain ⟨p1, p2, p3⟩ := splitDefC_prop dd hddnl
      exact parseFastaAux_wf ls hlines' _ _ [] p1 p2 p3 (by simp) (by simp) r hr
    | none =>
      rw [hdl] at hr
      exact ih hlines' r hr

theorem fastaWriteEl_value (d : Bool) (r : FastaRecC) :
    fastaWriteEl (fastaRecordValue d r) = .ok (fastaOut d r) := by
  cases d <;> rfl

theorem nuon_to_fasta_forward (d : Bool) (rs : List FastaRecC) :
    nuon_to_fasta (.list (rs.map (fastaRecordValue d))) =
      .ok (.str ⟨(rs.map (fastaOut d)).flatten⟩) := by
  simp only [nuon_to_fasta,
    collectE_map_ok (fastaRecordValue d) fastaWriteEl (fastaOut d)
      (fastaWriteEl_value d) rs]

theorem fastaOut_eq (d : Bool) (r : FastaRecC) :
    fastaOut d r = fastaDefLineC d r ++ '\n' :: (r.seq ++ ['\n']) := by
  cases d <;>
    simp [fastaOut, fastaRecordText, fastaDefLineC, List.append_assoc]

theorem fastaDefLineC_no_nl (d : Bool) (r : FastaRecC) (h : FastaWF r) :
    '\n' ∉ fastaDefLineC d r := by
  obtain ⟨h1, h2, h3, h4, h5⟩ := h
  intro hm
  simp only [fastaDefLineC, List.mem_cons, List.mem_append] at hm
  rcases hm with hm | hm | hm
  · exact absurd hm (by decide)
  · exact h2 hm
  · cases d with
    | false => simp at hm
    | true =>
      simp only [if_true] at hm
      rcases List.mem_cons.mp hm with hm' | hm'
      · exact absurd hm' (by decide)
      · exact h3 hm'

theorem splitOnNl_fasta_flatten (d : Bool) :
    ∀ rs : List FastaRecC, (∀ r ∈ rs, FastaWF r) →
      splitOnNl ((rs.map (fastaOut d)).flatten) =
        (rs.map (fun r => [fastaDefLineC d r, r.seq])).flatten ++ [[]] := by
  intro rs
  induction rs with
  | nil => intro _; rfl
  | cons r rs ih =>
    intro hwf
    have hr := hwf r (List.mem_cons_self r rs)
    have hrs := fun x hx => hwf x (List.mem_cons_of_mem r hx)
    have hshape : ((r :: rs).map (fastaOut d)).flatten
        = fastaDefLineC d r ++ '\n' :: (r.seq ++ '\n' :: (rs.map (fastaOut d)).flatten) := by
      simp [fastaOut_eq d r, List.append_assoc]
    rw [hshape, splitOnNl_append_nl _ _ (fastaDefLineC_no_nl d r hr),
      splitOnNl_append_nl _ _ hr.2.2.2.1, ih hrs]
    simp

theorem parseFastaAux_lines (d : Bool) :
    ∀ rs : List FastaRecC, (∀ r ∈ rs, FastaWF r) →
    ∀ n ds acc,
      parseFastaAux n ds acc
        ((rs.map (fun r => [fastaDefLineC d r, r.seq])).flatten ++ [[]]) =
        ⟨n, ds, acc⟩ :: rs.map (fastaReParse d) := by
  intro rs
  induction rs with
  | nil =>
    intro _ n ds acc
    show parseFastaAux n ds acc [[]] = [⟨n, ds, acc⟩]
    simp [parseFastaAux, defLineBody?]
  | cons r rs ih =>
    intro hwf n ds acc
    have hr := hwf r (List.mem_cons_self r rs)
    have hrs := fun x hx => hwf x (List.mem_cons_of_mem r hx)
    have hshape : (((r :: rs).map (fun r => [fastaDefLineC d r, r.seq])).flatten ++ [[]])
        = fastaDefLineC d r :: r.seq ::
            ((rs.map (fun r => [fastaDefLineC d r, r.seq])).flatten ++ [[]]) := by
      simp
    rw [hshape]
    rw [parseFastaAux]
    have hbody : defLineBody? (fastaDefLineC d r)
        = some (r.name ++ (if d then ' ' :: r.description.getD [] else [])) := by
      simp [fastaDefLineC, defLineBody?]
    rw [hbody]
    have hsplit : splitDefC (r.name ++ (if d then ' ' :: r.description.getD [] else []))
        = (r.name, if d then some (r.description.getD []) else none) := by
      cases d with
      | false =>
        show splitDefC (r.name ++ []) = (r.name, none)
        rw [List.append_nil]
        exact splitDefC_no_space r.name hr.1
      | true =>
        show splitDefC (r.name ++ ' ' :: r.description.getD [])
            = (r.name, some (r.description.getD []))
        exact splitDefC_with_space r.name _ hr.1
    simp only [hsplit]
    rw [parseFastaAux]
    rw [defLineBody?_of_head hr.2.2.2.2]
    rw [List.nil_append]
    rw [ih hrs]
    rfl

theorem parseFastaC_lines (d : Bool) (rs : List FastaRecC)
    (hwf : ∀ r ∈ rs, FastaWF r) :
    parseFastaC ((rs.map (fun r => [fastaDefLineC d r, r.seq])).flatten ++ [[]]) =
      rs.map (fastaReParse d) := by
  cases rs with
  | nil =>
    show parseFastaC [[]] = []
    simp [parseFastaC, defLineBody?]
  | cons r rs =>
    have hr := hwf r (List.mem_cons_self r rs)
    have hrs := fun x hx => hwf x (List.mem_cons_of_mem r hx)
    have hshape : (((r :: rs).map (fun r => [fastaDefLineC d r, r.seq])).flatten ++ [[]])
        = fastaDefLineC d r :: r.seq ::
            ((rs.map (fun r => [fastaDefLineC d r, r.seq])).flatten ++ [[]]) := by
      simp
    rw [hshape]
    rw [parseFastaC]
    have hbody : defLineBody? (fastaDefLineC d r)
        = some (r.name ++ (if d then ' ' :: r.description.getD [] else [])) := by
      simp [fastaDefLineC, defLineBody?]
    rw [hbody]
    have hsplit : splitDefC (r.name ++ (if d then ' ' :: r.description.getD [] else []))
        = (r.name, if d then some (r.description.getD []) else none) := by
      cases d with
      | false =>
        show splitDefC (r.name ++ []) = (r.name, none)
        rw [List.append_nil]
        exact splitDefC_no_space r.name hr.1
      | true =>
        show splitDefC (r.name ++ ' ' :: r.description.getD [])
            = (r.name, some (r.description.getD []))
        exact splitDefC_with_space r.name _ hr.1
    simp only [hsplit]
    rw [parseFastaAux]
    rw [defLineBody?_of_head hr.2.2.2.2]
    rw [List.nil_append]
    rw [parseFastaAux_lines d rs hrs]
    rfl

theorem fastaRecordValue_reParse (d : Bool) (r : FastaRecC) :
    fastaRecordValue d (fastaReParse d r) = fastaRecordValue d r := by
  cases d <;> rfl

theorem fasta_roundtrip (d : Bool) (t : String) :
    nuon_to_fasta (.list (from_fasta_inner d t)) =
      .ok (.str ⟨((parseFastaC (splitOnNl t.data)).map (fastaOut d)).flatten⟩) ∧
    from_fasta_inner d
        ⟨((parseFastaC (splitOnNl t.data)).map (fastaOut d)).flatten⟩ =
      from_fasta_inner d t := by
  have hwf : ∀ r ∈ parseFastaC (splitOnNl t.data), FastaWF r :=
    parseFastaC_wf (splitOnNl t.data)
      (fun l hl => mem_splitOnNl_no_nl t.data l hl)
  constructor
  · exact nuon_to_fasta_forward d (parseFastaC (splitOnNl t.data))
  · show (parseFastaC (splitOnNl
        ((parseFastaC (splitOnNl t.data)).map (fastaOut d)).flatten)).map
          (fastaRecordValue d) = _
    rw [splitOnNl_fasta_flatten d (parseFastaC (splitOnNl t.data)) hwf]
    rw [parseFastaC_lines d (parseFastaC (splitOnNl t.data)) hwf]
    rw [List.map_map]
    exact List.map_congr_left
      (fun r _ => fastaRecordValue_reParse d r)

theorem splitFqDef_body (name desc : List Char) (h : ' ' ∉ name) :
    splitFqDef (fqDefLineBody name desc) = (name, desc) := by
  by_cases hd : desc = []
  · subst hd
    show splitFqDef name = (name, [])
    simp only [splitFqDef]
    rw [dropWhile_nospace name h, takeWhile_nospace name h]
  · simp only [fqDefLineBody, if_neg hd, splitFqDef]
    rw [dropWhile_append_space name desc h, takeWhile_append_space name desc h]

theorem mem_stripAt {x : Char} {l : List Char} (h : x ∈ stripAt l) : x ∈ l := by
  cases l with
  | nil => cases h
  | cons c t =>
    by_cases hc : c = '@'
    · rw [stripAt, if_pos hc] at h
      exact List.mem_cons_of_mem c h
    · rw [stripAt, if_neg hc] at h
      exact h

theorem splitFqDef_prop (b : List Char) (hnl : '\n' ∉ b) :
    ' ' ∉ (splitFqDef b).1 ∧ '\n' ∉ (splitFqDef b).1 ∧
    '\n' ∉ (splitFqDef b).2 := by
  refine ⟨?_, ?_, ?_⟩
  · intro hm
    simp only [splitFqDef] at hm
    have := List.mem_takeWhile_imp hm
    simp at this
  · intro hm
    simp only [splitFqDef] at hm
    exact hnl ((List.takeWhile_sublist _).subset hm)
  · intro hm
    simp only [splitFqDef] at hm
    cases hdw : b.dropWhile (fun c => c ≠ ' ') with
    | nil => rw [hdw] at hm; cases hm
    | cons x dd =>
      rw [hdw] at hm
      have hmem : '\n' ∈ b.dropWhile (fun c => c ≠ ' ') := by
        rw [hdw]
        exact List.mem_cons_of_mem x hm
      exact hnl ((List.dropWhile_sublist _).subset hmem)

theorem parseFastqC_wf_go :
    ∀ (n : Nat) (lines : List (List Char)), lines.length ≤ n →
      (∀ l ∈ lines, '\n' ∉ l) → ∀ r ∈ parseFastqC lines, FastqWF r := by
  intro n
  induction n with
  | zero =>
    intro lines hlen _ r hr
    cases lines with
    | nil => cases hr
    | cons a t => simp at hlen
  | succ n ih =>
    intro lines hlen hlines r hr
    rcases lines with _ | ⟨dl, _ | ⟨s, _ | ⟨p, _ | ⟨q, rest⟩⟩⟩⟩
    · cases hr
    · have h0 : parseFastqC [dl] = [] := rfl
      rw [h0] at hr
      cases hr
    · have h0 : parseFastqC [dl, s] = [] := rfl
      rw [h0] at hr
      cases hr
    · have h0 : parseFastqC [dl, s, p] = [] := rfl
      rw [h0] at hr
      cases hr
    · have h0 : parseFastqC (dl :: s :: p :: q :: rest) =
        ⟨(splitFqDef (stripAt dl)).1, (splitFqDef (stripAt dl)).2, s, q⟩ ::
          parseFastqC rest := rfl
      rw [h0] at hr
      have hdlnl : '\n' ∉ dl := hlines dl (by simp)
      have hbodynl : '\n' ∉ stripAt dl := fun hm => hdlnl (mem_stripAt hm)
      rcases List.mem_cons.mp hr with hre | hrt
      · subst hre
        obtain ⟨p1, p2, p3⟩ := splitFqDef_prop (stripAt dl) hbodynl
        exact ⟨p1, p2, p3, hlines s (by simp), hlines q (by simp)⟩
      · have hlen' : rest.length ≤ n := by
          simp only [List.length_cons] at hlen
          omega
        have hlines' : ∀ l ∈ rest, '\n' ∉ l :=
          fun l hl => hlines l (by simp [hl])
        exact ih rest hlen' hlines' r hrt

theorem parseFastqC_wf (lines : List (List Char))
    (hlines : ∀ l ∈ lines, '\n' ∉ l) :
    ∀ r ∈ parseFastqC lines, FastqWF r :=
  parseFastqC_wf_go lines.length lines (Nat.le_refl _) hlines

theorem fastqWriteEl_value (d : Bool) (r : FastqRecC) :
    fastqWriteEl d true (fastqRecordValue d true r) = .ok (fastqOut d r) := by
  cases d <;> rfl

theorem nuon_to_fastq_forward (d : Bool) (r0 : FastqRecC) (rs : List FastqRecC) :
    nuon_to_fastq (.list ((r0 :: rs).map (fastqRecordValue d true))) =
      .ok (.str ⟨((r0 :: rs).map (fastqOut d)).flatten⟩) := by
  cases d with
  | false =>
    show (match collectE (fastqWriteEl false true)
        ((r0 :: rs).map (fastqRecordValue false true)) with
      | Except.error e => Except.error e
      | Except.ok chunks => Except.ok (NuValue.str ⟨chunks.flatten⟩)) = _
    rw [collectE_map_ok (fastqRecordValue false true) (fastqWriteEl false true)
      (fastqOut false) (fastqWriteEl_value false) (r0 :: rs)]
  | true =>
    show (match collectE (fastqWriteEl true true)
        ((r0 :: rs).map (fastqRecordValue true true)) with
      | Except.error e => Except.error e
      | Except.ok chunks => Except.ok (NuValue.str ⟨chunks.flatten⟩)) = _
    rw [collectE_map_ok (fastqRecordValue true true) (fastqWriteEl true true)
      (fastqOut true) (fastqWriteEl_value true) (r0 :: rs)]

theorem fastqOut_eq (d : Bool) (r : FastqRecC) :
    fastqOut d r = ('@' :: fqDefLineBody r.name (if d then r.description else []))
      ++ '\n' :: (r.seq ++ '\n' :: ('+' :: '\n' :: (r.qual ++ ['\n']))) := by
  by_cases hde : (if d then r.description else []) = [] <;>
    simp [fastqOut, fastqRecordText, fqDefLineBody, hde, List.append_assoc]

theorem fqDefLine_no_nl (d : Bool) (r : FastqRecC) (h : FastqWF r) :
    '\n' ∉ '@' :: fqDefLineBody r.name (if d then r.description else []) := by
  obtain ⟨h1, h2, h3, h4, h5⟩ := h
  intro hm
  rcases List.mem_cons.mp hm with hm' | hm'
  · exact absurd hm' (by decide)
  · by_cases hde : (if d then r.description else []) = []
    · rw [fqDefLineBody, if_pos hde] at hm'
      exact h2 hm'
    · rw [fqDefLineBody, if_neg hde] at hm'
      rcases List.mem_append.mp hm' with hm2 | hm2
      · exact h2 hm2
      · rcases List.mem_cons.mp hm2 with hm3 | hm3
        · exact absurd hm3 (by decide)
        · cases d with
          | false => cases hm3
          | true => exact h3 hm3

theorem splitOnNl_fastq_flatten (d : Bool) :
    ∀ rs : List FastqRecC, (∀ r ∈ rs, FastqWF r) →
      splitOnNl ((rs.map (fastqOut d)).flatten) =
        (rs.map (fun r =>
          ['@' :: fqDefLineBody r.name (if d then r.description else []),
           r.seq, ['+'], r.qual])).flatten ++ [[]] := by
  intro rs
  induction rs with
  | nil => intro _; rfl
  | cons r rs ih =>
    intro hwf
    have hr := hwf r (List.mem_cons_self r rs)
    have hrs := fun x hx => hwf x (List.mem_cons_of_mem r hx)
    have hplus : ∀ z : List Char, splitOnNl ('+' :: '\n' :: z) = ['+'] :: splitOnNl z :=
      fun z => splitOnNl_append_nl ['+'] z (by decide)
    have hshape : ((r :: rs).map (fastqOut d)).flatten
        = ('@' :: fqDefLineBody r.name (if d then r.description else []))
          ++ '\n' :: (r.seq ++ '\n' :: ('+' :: '\n' ::
            (r.qual ++ '\n' :: (rs.map (fastqOut d)).flatten))) := by
      simp [fastqOut_eq d r, List.append_assoc]
    rw [hshape, splitOnNl_append_nl _ _ (fqDefLine_no_nl d r hr),
      splitOnNl_append_nl _ _ hr.2.2.2.1, hplus,
      splitOnNl_append_nl _ _ hr.2.2.2.2, ih hrs]
    simp

theorem parseFastqC_lines (d : Bool) :
    ∀ rs : List FastqRecC, (∀ r ∈ rs, FastqWF r) →
      parseFastqC ((rs.map (fun r =>
        ['@' :: fqDefLineBody r.name (if d then r.description else []),
         r.seq, ['+'], r.qual])).flatten ++ [[]]) =
        rs.map (fastqReParse d) := by
  intro rs
  induction rs with
  | nil =>
    intro _
    rfl
  | cons r rs ih =>
    intro hwf
    have hr := hwf r (List.mem_cons_self r rs)
    have hrs := fun x hx => hwf x (List.mem_cons_of_mem r hx)
    have hshape : (((r :: rs).map (fun r =>
        ['@' :: fqDefLineBody r.name (if d then r.description else []),
         r.seq, ['+'], r.qual])).flatten ++ [[]])
        = ('@' :: fqDefLineBody r.name (if d then r.description else []))
          :: r.seq :: ['+'] :: r.qual ::
            ((rs.map (fun r =>
              ['@' :: fqDefLineBody r.name (if d then r.description else []),
               r.seq, ['+'], r.qual])).flatten ++ [[]]) := by
      simp
    rw [hshape]
    have hstep : parseFastqC (('@' :: fqDefLineBody r.name (if d then r.description else []))
        :: r.seq :: ['+'] :: r.qual ::
          ((rs.map (fun r =>
            ['@' :: fqDefLineBody r.name (if d then r.description else []),
             r.seq, ['+'], r.qual])).flatten ++ [[]]))
        = ⟨(splitFqDef (fqDefLineBody r.name (if d then r.description else []))).1,
           (splitFqDef (fqDefLineBody r.name (if d then r.description else []))).2,
           r.seq, r.qual⟩ ::
          parseFastqC ((rs.map (fun r =>
            ['@' :: fqDefLineBody r.name (if d then r.description else []),
             r.seq, ['+'], r.qual])).flatten ++ [[]]) := rfl
    rw [hstep, splitFqDef_body r.name _ hr.1, ih hrs]
    rfl

theorem fastqRecordValue_reParse (d : Bool) (r : FastqRecC) :
    fastqRecordValue d true (fastqReParse d r) = fastqRecordValue d true r := by
  cases d <;> rfl

theorem fastq_roundtrip (d : Bool) (t : String) (r0 : FastqRecC)
    (rs : List FastqRecC) (hparse : parseFastqC (splitOnNl t.data) = r0 :: rs) :
    nuon_to_fastq (.list (from_fastq_inner d true t)) =
      .ok (.str ⟨((parseFastqC (splitOnNl t.data)).map (fastqOut d)).flatten⟩) ∧
    from_fastq_inner d true
        ⟨((parseFastqC (splitOnNl t.data)).map (fastqOut d)).flatten⟩ =
      from_fastq_inner d true t := by
  have hwf : ∀ r ∈ parseFastqC (splitOnNl t.data), FastqWF r :=
    parseFastqC_wf (splitOnNl t.data)
      (fun l hl => mem_splitOnNl_no_nl t.data l hl)
  constructor
  · show nuon_to_fastq
        (.list ((parseFastqC (splitOnNl t.data)).map (fastqRecordValue d true))) = _
    rw [hparse]
    exact nuon_to_fastq_forward d r0 rs
  · show (parseFastqC (splitOnNl
        ((parseFastqC (splitOnNl t.data)).map (fastqOut d)).flatten)).map
          (fastqRecordValue d true) = _
    rw [splitOnNl_fastq_flatten d (parseFastqC (splitOnNl t.data)) hwf]
    rw [parseFastqC_lines d (parseFastqC (splitOnNl t.data)) hwf]
    rw [List.map_map]
    exact List.map_congr_left
      (fun r _ => fastqRecordValue_reParse d r)

/-- C1 (amended): round-tripping holds exactly where the matching
reverse mapper succeeds.  For FASTA, every flag shape and every
forward-mapped list (the empty one included) serializes successfully and
re-parsing with the same flag reproduces the structured records exactly.
For FASTQ, serialization succeeds precisely for a non-empty list under a
flag shape that includes quality scores, and then re-parsing reproduces
the records exactly; an empty forward-mapped list is rejected with the
"No value" error and a list forward-mapped without the quality-scores
flag is rejected with the "No quality scores" error, so those cases
produce no text at all. -/
theorem sequence_roundtrip :
    (∀ (d : Bool) (t : String), ∃ t2 : String,
      nuon_to_fasta (.list (from_fasta_inner d t)) = .ok (.str t2) ∧
      from_fasta_inner d t2 = from_fasta_inner d t) ∧
    (∀ (d : Bool) (t : String), 0 < (from_fastq_inner d true t).length →
      ∃ t2 : String,
        nuon_to_fastq (.list (from_fastq_inner d true t)) = .ok (.str t2) ∧
        from_fastq_inner d true t2 = from_fastq_inner d true t) ∧
    (∀ (d q : Bool) (t : String), from_fastq_inner d q t = [] →
      nuon_to_fastq (.list (from_fastq_inner d q t)) =
        .error ("No value: There was no first value to call `to fastq` on")) ∧
    (∀ (d : Bool) (t : String), 0 < (from_fastq_inner d false t).length →
      nuon_to_fastq (.list (from_fastq_inner d false t)) =
        .error ("No quality scores: Consider using `to fasta` if you don\x27t have any quality scores, or pass the -q option on a fastq")) := by
  refine ⟨?_, ?_, ?_, ?_⟩
  · intro d t
    exact ⟨_, (fasta_roundtrip d t).1, (fasta_roundtrip d t).2⟩
  · intro d t hlen
    have hne : parseFastqC (splitOnNl t.data) ≠ [] := by
      intro hnil
      rw [show from_fastq_inner d true t
          = (parseFastqC (splitOnNl t.data)).map (fastqRecordValue d true) from rfl,
        hnil] at hlen
      simp at hlen
    cases hparse : parseFastqC (splitOnNl t.data) with
    | nil => exact absurd hparse hne
    | cons r0 rs =>
      exact ⟨_, (fastq_roundtrip d t r0 rs hparse).1,
        (fastq_roundtrip d t r0 rs hparse).2⟩
  · intro d q t hnil
    rw [hnil]
    rfl
  · intro d t hlen
    cases hparse : parseFastqC (splitOnNl t.data) with
    | nil =>
      rw [show from_fastq_inner d false t
          = (parseFastqC (splitOnNl t.data)).map (fastqRecordValue d false) from rfl,
        hparse] at hlen
      simp at hlen
    | cons r0 rs =>
      show nuon_to_fastq
        (.list ((parseFastqC (splitOnNl t.data)).map (fastqRecordValue d false))) = _
      rw [hparse]
      cases d with
      | false =>
        exact nuon_to_fastq_no_quality_col _ _
          (show (("quality_scores" : String)) ∉ (["id", "sequence"] : List String)
            by decide)
      | true =>
        exact nuon_to_fastq_no_quality_col _ _
          (show (("quality_scores" : String)) ∉
              (["id", "description", "sequence"] : List String)
            by decide)

/-- C1 (counterexample): under the flag shape without quality scores, a
concrete one-record forward-mapped FASTQ list is rejected by the
matching reverse mapper — it yields an error, never a text to re-parse;
likewise the empty forward-mapped list is rejected with the "No value"
error. -/
theorem sequence_roundtrip_counterexample :
    from_fastq_inner false false "@r1\nAC\n+\n!!\n" =
      [NuValue.recV [("id", .str ("r1")), ("sequence", .str ("AC"))]] ∧
    nuon_to_fastq (.list (from_fastq_inner false false "@r1\nAC\n+\n!!\n")) =
      .error ("No quality scores: Consider using `to fasta` if you don\x27t have any quality scores, or pass the -q option on a fastq") ∧
    (∀ t2 : String,
      nuon_to_fastq (.list (from_fastq_inner false false "@r1\nAC\n+\n!!\n")) ≠
        .ok (.str t2)) ∧
    from_fastq_inner false true "" = [] ∧
    nuon_to_fastq (.list (from_fastq_inner false true "")) =
      .error ("No value: There was no first value to call `to fastq` on") := by
  refine ⟨rfl, rfl, ?_, rfl, rfl⟩
  intro t2 h
  rw [show nuon_to_fastq (.list (from_fastq_inner false false "@r1\nAC\n+\n!!\n")) =
      .error ("No quality scores: Consider using `to fasta` if you don\x27t have any quality scores, or pass the -q option on a fastq") from rfl] at h
  cases h

/-- C1 witness: a concrete one-record FASTQ input under the
quality-scores flag shape (success conjunct), the empty input (No-value
conjunct) and a one-record input without the quality flag (No-quality
conjunct). -/
theorem sequence_roundtrip_witness :
    (0 < (from_fastq_inner false true "@r1 x\nACGT\n+\n!!!!\n").length) ∧
    (∃ t2 : String,
      nuon_to_fastq
        (.list (from_fastq_inner false true "@r1 x\nACGT\n+\n!!!!\n")) =
          .ok (.str t2) ∧
      from_fastq_inner false true t2 =
        from_fastq_inner false true "@r1 x\nACGT\n+\n!!!!\n") ∧
    (from_fastq_inner true true "" = []) ∧
    nuon_to_fastq (.list (from_fastq_inner true true "")) =
      .error ("No value: There was no first value to call `to fastq` on") ∧
    (0 < (from_fastq_inner true false "@r2\nGG\n+\n##\n").length) ∧
    nuon_to_fastq (.list (from_fastq_inner true false "@r2\nGG\n+\n##\n")) =
      .error ("No quality scores: Consider using `to fasta` if you don\x27t have any quality scores, or pass the -q option on a fastq") :=
  ⟨by decide,
   sequence_roundtrip.2.1 false "@r1 x\nACGT\n+\n!!!!\n" (by decide),
   rfl,
   sequence_roundtrip.2.2.1 true true "" rfl,
   by decide,
   sequence_roundtrip.2.2.2 true "@r2\nGG\n+\n##\n" (by decide)⟩

/-- C10 witness at a concrete string input. -/
theorem nonlist_reverse_mappers_witness :
    isList (NuValue.str ("not a table")) = false ∧
    nuon_to_fasta (NuValue.str ("not a table")) = .ok (.str ("")) ∧
    nuon_to_fastq (NuValue.str ("not a table")) = .ok (.str ("")) :=
  ⟨rfl, (nonlist_reverse_mappers (NuValue.str ("not a table")) rfl).1,
   (nonlist_reverse_mappers (NuValue.str ("not a table")) rfl).2⟩

end NuBio
